import Mathlib

/-!
Shallow embedding of the fog-of-war chess engine (`fow_chess/board.py`)
together with the value types it uses (`chesscolor.py`, `piece.py`,
`position.py`, `move.py` — those files are not part of the sources at hand,
so they are modelled from the specification where noted).

Conventions of the embedding:
* Python machine integers are modelled by `Int` (ranks/files) and by `Nat`
  (the two counters, which are non-negative in every reachable state).
* The Python `dict` keyed by `Position` is modelled by an association list
  with Python-dict semantics (`pyGet`, `pySet`, `pyDel`); `del d[k]` on a
  present key removes that binding, and every `del` performed by
  `apply_move` is on a present key for moves drawn from the current legal
  move list.
* Fallible Python code (a `KeyError`-raising subscript, an out-of-bounds
  numpy write) is modelled with `Option`: `none` is the raised exception.
* The `Move.fen` provenance field (the FEN snapshot stored in every move)
  is omitted: the specification states it is provenance only, and no code
  in `board.py` ever reads it.
-/

/-- Modelled from the spec: `chesscolor.py` is not among the sources.  The
color enumeration carries a third `DRAW` sentinel used only as a return
value of `apply_move`, and a numeric `value` used for tensor channel
indexing (`7 + color.value * 6 + type.ordinal`). -/
inductive ChessColor where
  | WHITE
  | BLACK
  | DRAW
deriving DecidableEq

/-- Modelled from the spec: the numeric value of a color, used by the
tensor codecs; `WHITE` and `BLACK` index the twelve occupancy planes. -/
def ChessColor.value : ChessColor → Nat
  | .WHITE => 0
  | .BLACK => 1
  | .DRAW => 2

/-- Modelled from the spec: `piece.py` is not among the sources.  The six
piece types, in the declaration order the spec lists them. -/
inductive PieceType where
  | PAWN
  | KNIGHT
  | BISHOP
  | ROOK
  | QUEEN
  | KING
deriving DecidableEq

/-- Modelled from the spec: the stable ordinal of a piece type used for
tensor-channel indexing, following declaration order. -/
def PieceType.ordinal : PieceType → Nat
  | .PAWN => 0
  | .KNIGHT => 1
  | .BISHOP => 2
  | .ROOK => 3
  | .QUEEN => 4
  | .KING => 5

/-- Modelled from the spec: the lowercase FEN letter of a piece type
(`PieceType.value` in the source). -/
def PieceType.valueChar : PieceType → Char
  | .PAWN => 'p'
  | .KNIGHT => 'n'
  | .BISHOP => 'b'
  | .ROOK => 'r'
  | .QUEEN => 'q'
  | .KING => 'k'

/-- Modelled from the spec: the uppercase FEN letter of a piece type
(`PieceType.value.upper()` in the source). -/
def PieceType.valueCharUpper : PieceType → Char
  | .PAWN => 'P'
  | .KNIGHT => 'N'
  | .BISHOP => 'B'
  | .ROOK => 'R'
  | .QUEEN => 'Q'
  | .KING => 'K'

/-- Modelled from the spec: `position.py` is not among the sources.  A
board coordinate: integers `rank` and `file`, conventionally in `[1,8]`;
equality is by `(rank, file)`. -/
structure Position where
  rank : Int
  file : Int
deriving DecidableEq

/-- Modelled from the spec: the validity predicate of `Position`, true iff
both the rank and the file lie in `[1, 8]`. -/
def Position.is_valid (p : Position) : Bool :=
  1 ≤ p.rank && p.rank ≤ 8 && 1 ≤ p.file && p.file ≤ 8

/-- Modelled from the spec: two-character algebraic notation of a
position, file letter `a`–`h` followed by rank digit `1`–`8`
(`Position.to_san` in the source). -/
def Position.to_san (p : Position) : String :=
  String.mk [Char.ofNat (96 + p.file).toNat, Char.ofNat (48 + p.rank).toNat]

/-- Modelled from the spec: parse two-character algebraic notation,
failing on malformed input (`Position.from_san` in the source). -/
def Position.from_san (s : String) : Option Position :=
  match s.data with
  | [fc, rc] =>
      if 'a' ≤ fc && fc ≤ 'h' && '1' ≤ rc && rc ≤ '8' then
        some ⟨(rc.toNat : Int) - 48, (fc.toNat : Int) - 96⟩
      else
        none
  | _ => none

/-- Modelled from the spec: `piece.py` is not among the sources.  A piece
record: type, color and current position. -/
structure Piece where
  type : PieceType
  color : ChessColor
  position : Position
deriving DecidableEq

/-- The `piece.rank` accessor: the rank of the piece's position. -/
def Piece.rank (p : Piece) : Int := p.position.rank

/-- The `piece.file` accessor: the file of the piece's position. -/
def Piece.file (p : Piece) : Int := p.position.file

/-- Modelled from the spec: construction of a `Piece` from its FEN letter
(uppercase is WHITE, lowercase is BLACK), failing on an unknown letter. -/
def Piece.ofChar (c : Char) (pos : Position) : Option Piece :=
  match c with
  | 'P' => some ⟨.PAWN, .WHITE, pos⟩
  | 'N' => some ⟨.KNIGHT, .WHITE, pos⟩
  | 'B' => some ⟨.BISHOP, .WHITE, pos⟩
  | 'R' => some ⟨.ROOK, .WHITE, pos⟩
  | 'Q' => some ⟨.QUEEN, .WHITE, pos⟩
  | 'K' => some ⟨.KING, .WHITE, pos⟩
  | 'p' => some ⟨.PAWN, .BLACK, pos⟩
  | 'n' => some ⟨.KNIGHT, .BLACK, pos⟩
  | 'b' => some ⟨.BISHOP, .BLACK, pos⟩
  | 'r' => some ⟨.ROOK, .BLACK, pos⟩
  | 'q' => some ⟨.QUEEN, .BLACK, pos⟩
  | 'k' => some ⟨.KING, .BLACK, pos⟩
  | _ => none

/-- Modelled from the spec: `move.py` is not among the sources.  A move
value: moving piece, destination, optional capture target, optional
promotion type, optional castling rook.  The FEN provenance snapshot the
source also stores is omitted (never read by any logic, per the spec). -/
structure Move where
  piece : Piece
  to_position : Position
  capture_target : Option Piece
  promotion_piece : Option PieceType
  castling_rook : Option Piece
deriving DecidableEq

/-- The piece map `Board.pieces` (a Python `dict` keyed by `Position`). -/
abbrev PieceMap := List (Position × Piece)

/-- `d.get(k)`: first binding of the key, if any. -/
def pyGet (d : PieceMap) (k : Position) : Option Piece :=
  match d with
  | [] => none
  | (k', v) :: rest => if k' = k then some v else pyGet rest k

/-- `d[k] = v`: replace the binding of `k` in place if present, else
append it (Python dict assignment, which preserves insertion order). -/
def pySet (d : PieceMap) (k : Position) (v : Piece) : PieceMap :=
  match d with
  | [] => [(k, v)]
  | (k', v') :: rest => if k' = k then (k, v) :: rest else (k', v') :: pySet rest k v

/-- `del d[k]`: drop the binding of `k`.  (Python raises `KeyError` when
the key is absent; every `del` in `apply_move` is on a present key for
moves drawn from the current legal move list, and an absent key is
modelled as a no-op.) -/
def pyDel (d : PieceMap) (k : Position) : PieceMap :=
  match d with
  | [] => []
  | (k', v') :: rest => if k' = k then rest else (k', v') :: pyDel rest k

/-- The board aggregate (`Board` in the source).  The Python
`self.castling` dict with keys `WHITE`/`BLACK` and `[kingside, queenside]`
boolean pairs as values is modelled by the two pair fields. -/
structure Board where
  pieces : PieceMap
  castlingW : Bool × Bool
  castlingB : Bool × Bool
  side_to_move : ChessColor
  en_passant : Option Position
  halfmove_clock : Nat
  fullmove_number : Nat
  fen : String
  fow_fen : String
deriving DecidableEq

/-- `self.castling[color]` (the `DRAW` sentinel is never a key of the
Python dict; it is mapped to the BLACK entry, and no theorem below relies
on that corner). -/
def Board.castling (b : Board) : ChessColor → Bool × Bool
  | .WHITE => b.castlingW
  | _ => b.castlingB

/-- The FEN letter of a piece: uppercase for WHITE, lowercase otherwise
(`piece.type.value.upper() if piece.color == ChessColor.WHITE else
piece.type.value.lower()`). -/
def pieceChar (p : Piece) : Char :=
  match p.color with
  | .WHITE => p.type.valueCharUpper
  | _ => p.type.valueChar

/-- One rank string of the full-visibility FEN: the inner loop of
`Board.to_fen` over files 1..8, carrying the empty-square counter.  The
counter never exceeds 8, so `str(empty_counter)` is its decimal digits. -/
def fenRankGo (b : Board) (rank : Int) : List Int → Nat → String → String
  | [], cnt, s => if cnt ≠ 0 then s ++ toString cnt else s
  | f :: rest, cnt, s =>
      match pyGet b.pieces ⟨rank, f⟩ with
      | some pc =>
          let s' := if cnt ≠ 0 then s ++ toString cnt else s
          fenRankGo b rank rest 0 (s'.push (pieceChar pc))
      | none => fenRankGo b rank rest (cnt + 1) s

/-- The eight files, in the order `range(1, 9)` iterates them. -/
def fileList : List Int := [1, 2, 3, 4, 5, 6, 7, 8]

/-- The eight ranks, in the order `range(8, 0, -1)` iterates them. -/
def rankListRev : List Int := [8, 7, 6, 5, 4, 3, 2, 1]

/-- The castling-rights field of the full FEN (`to_fen`, the four `if`s
building `castling_str`, with `-` when no right remains). -/
def castlingStr (b : Board) : String :=
  let s := (if b.castlingW.1 then "K" else "")
        ++ (if b.castlingW.2 then "Q" else "")
        ++ (if b.castlingB.1 then "k" else "")
        ++ (if b.castlingB.2 then "q" else "")
  if s = "" then "-" else s

/-- `Board.to_fen`: the full-visibility FEN string. -/
def Board.to_fen (b : Board) : String :=
  let ranks := rankListRev.map (fun r => fenRankGo b r fileList 0 "")
  let side := if b.side_to_move = ChessColor.WHITE then "w" else "b"
  let ep := match b.en_passant with
    | some e => e.to_san
    | none => "-"
  String.intercalate " "
    [String.intercalate "/" ranks, side, castlingStr b, ep,
     toString b.halfmove_clock, toString b.fullmove_number]

/-- The four promotion piece types, in the order the source tries them. -/
def promotionTypes : List PieceType :=
  [PieceType.QUEEN, PieceType.ROOK, PieceType.BISHOP, PieceType.KNIGHT]

/-- `Board.add_move_if_not_blocked`: the shared step primitive of move
generation.  Returns the extended move list together with the `was
blocked` flag the Python function returns.  An off-board target adds
nothing and reports blocked; an empty target adds a quiet move (or the
four promotion variants) unless `must_capture`, and reports not blocked;
an occupied target reports blocked, adding a capture (or the four
promotion-capture variants) iff the occupant is an enemy and
`can_capture`. -/
def Board.add_move_if_not_blocked (b : Board) (moves : List Move) (piece : Piece)
    (target : Position) (can_capture can_promote must_capture : Bool) :
    List Move × Bool :=
  if ¬ target.is_valid then
    (moves, true)
  else
    match pyGet b.pieces target with
    | none =>
        if ¬ must_capture then
          if can_promote then
            (moves ++ promotionTypes.map (fun ty => ⟨piece, target, none, some ty, none⟩), false)
          else
            (moves ++ [⟨piece, target, none, none, none⟩], false)
        else
          (moves, false)
    | some tp =>
        if tp.color ≠ piece.color ∧ can_capture then
          if can_promote then
            (moves ++ promotionTypes.map (fun ty => ⟨piece, target, some tp, some ty, none⟩), true)
          else
            (moves ++ [⟨piece, target, some tp, none, none⟩], true)
        else
          (moves, true)

/-- The non-en-passant part of `Board.get_white_pawn_moves`: the one- or
two-square march followed by the two `must_capture` diagonal steps, in
source order. -/
def Board.white_pawn_base (b : Board) (piece : Piece) : List Move :=
  let m1 : List Move :=
    if piece.rank = 2 then
      let r := b.add_move_if_not_blocked [] piece ⟨3, piece.file⟩ false false false
      if ¬ r.2 then
        (b.add_move_if_not_blocked r.1 piece ⟨4, piece.file⟩ false false false).1
      else
        r.1
    else if piece.rank ≤ 7 then
      (b.add_move_if_not_blocked [] piece ⟨piece.rank + 1, piece.file⟩ false
        (piece.rank == 7) false).1
    else
      []
  let m2 := (b.add_move_if_not_blocked m1 piece ⟨piece.rank + 1, piece.file + 1⟩ true
    (piece.rank == 7) true).1
  (b.add_move_if_not_blocked m2 piece ⟨piece.rank + 1, piece.file - 1⟩ true
    (piece.rank == 7) true).1

/-- The en-passant part of `Board.get_white_pawn_moves` (the final `if
self.en_passant` block): when a target exists at file distance one, with
the pawn on rank 5 and the target on rank 6, the one en-passant move is
appended, capturing the piece looked up at `(5, target.file)` — a lookup
whose `KeyError` on an absent key is the `none` outcome. -/
def Board.white_pawn_ep (b : Board) (piece : Piece) : Option (List Move) :=
  match b.en_passant with
  | none => some []
  | some ep =>
      if (piece.file - ep.file).natAbs = 1 ∧ piece.rank = 5 ∧ ep.rank = 6 then
        (pyGet b.pieces ⟨5, ep.file⟩).map (fun t => [⟨piece, ep, some t, none, none⟩])
      else
        some []

/-- `Board.get_white_pawn_moves`. -/
def Board.get_white_pawn_moves (b : Board) (piece : Piece) : Option (List Move) :=
  (b.white_pawn_ep piece).map (fun e => b.white_pawn_base piece ++ e)

/-- The non-en-passant part of `Board.get_black_pawn_moves`. -/
def Board.black_pawn_base (b : Board) (piece : Piece) : List Move :=
  let m1 : List Move :=
    if piece.rank = 7 then
      let r := b.add_move_if_not_blocked [] piece ⟨6, piece.file⟩ false false false
      if ¬ r.2 then
        (b.add_move_if_not_blocked r.1 piece ⟨5, piece.file⟩ false false false).1
      else
        r.1
    else if 2 ≤ piece.rank then
      (b.add_move_if_not_blocked [] piece ⟨piece.rank - 1, piece.file⟩ false
        (piece.rank == 2) false).1
    else
      []
  let m2 := (b.add_move_if_not_blocked m1 piece ⟨piece.rank - 1, piece.file + 1⟩ true
    (piece.rank == 2) true).1
  (b.add_move_if_not_blocked m2 piece ⟨piece.rank - 1, piece.file - 1⟩ true
    (piece.rank == 2) true).1

/-- The en-passant part of `Board.get_black_pawn_moves`: pawn on rank 4,
target on rank 3, capturing the piece looked up at `(4, target.file)`. -/
def Board.black_pawn_ep (b : Board) (piece : Piece) : Option (List Move) :=
  match b.en_passant with
  | none => some []
  | some ep =>
      if (piece.file - ep.file).natAbs = 1 ∧ piece.rank = 4 ∧ ep.rank = 3 then
        (pyGet b.pieces ⟨4, ep.file⟩).map (fun t => [⟨piece, ep, some t, none, none⟩])
      else
        some []

/-- `Board.get_black_pawn_moves`. -/
def Board.get_black_pawn_moves (b : Board) (piece : Piece) : Option (List Move) :=
  (b.black_pawn_ep piece).map (fun e => b.black_pawn_base piece ++ e)

/-- `Board.get_pawn_moves`: dispatch by pawn color (the BLACK test of the
source; any other color takes the white branch). -/
def Board.get_pawn_moves (b : Board) (piece : Piece) : Option (List Move) :=
  match piece.color with
  | .BLACK => b.get_black_pawn_moves piece
  | _ => b.get_white_pawn_moves piece

/-- The knight offset table of `Board.get_knight_moves`, as `(dx, dy)`
pairs in source order (`dx` added to the rank, `dy` to the file). -/
def knightOffsets : List (Int × Int) :=
  [(1, 2), (2, 1), (2, -1), (1, -2), (-1, -2), (-2, -1), (-2, 1), (-1, 2)]

/-- The king offset table of `Board.get_king_moves`. -/
def kingOffsets : List (Int × Int) :=
  [(1, 1), (1, 0), (1, -1), (0, 1), (0, -1), (-1, 1), (-1, 0), (-1, -1)]

/-- Try a fixed list of offsets independently with `can_capture=True`
(the loop shared by `get_knight_moves` and the first half of
`get_king_moves`). -/
def Board.offsetMoves (b : Board) (piece : Piece) : List (Int × Int) → List Move → List Move
  | [], moves => moves
  | (dx, dy) :: rest, moves =>
      b.offsetMoves piece rest
        (b.add_move_if_not_blocked moves piece ⟨piece.rank + dx, piece.file + dy⟩
          true false false).1

/-- `Board.get_knight_moves`. -/
def Board.get_knight_moves (b : Board) (piece : Piece) : List Move :=
  b.offsetMoves piece knightOffsets []

/-- One ray of `get_bishop_moves` / `get_rook_moves`: steps `i = 1..7`
outward in direction `(dr, df)`, stopping when a step reports blocked
(the `for i in range(1, 8)` loop with `break`). -/
def Board.rayGo (b : Board) (piece : Piece) (dr df : Int) : Nat → Int → List Move → List Move
  | 0, _, moves => moves
  | fuel + 1, i, moves =>
      let r := b.add_move_if_not_blocked moves piece
        ⟨piece.rank + dr * i, piece.file + df * i⟩ true false false
      if r.2 then r.1 else b.rayGo piece dr df fuel (i + 1) r.1

/-- `Board.get_bishop_moves`: the four diagonal rays, in source order. -/
def Board.get_bishop_moves (b : Board) (piece : Piece) : List Move :=
  let m1 := b.rayGo piece 1 1 7 1 []
  let m2 := b.rayGo piece 1 (-1) 7 1 m1
  let m3 := b.rayGo piece (-1) 1 7 1 m2
  b.rayGo piece (-1) (-1) 7 1 m3

/-- `Board.get_rook_moves`: the four orthogonal rays, in source order. -/
def Board.get_rook_moves (b : Board) (piece : Piece) : List Move :=
  let m1 := b.rayGo piece 1 0 7 1 []
  let m2 := b.rayGo piece (-1) 0 7 1 m1
  let m3 := b.rayGo piece 0 1 7 1 m2
  b.rayGo piece 0 (-1) 7 1 m3

/-- `Board.get_queen_moves`: rook moves followed by bishop moves. -/
def Board.get_queen_moves (b : Board) (piece : Piece) : List Move :=
  b.get_rook_moves piece ++ b.get_bishop_moves piece

/-- `range(lo, hi)` over integers, for the castling emptiness scan. -/
def intRange (lo hi : Int) : List Int :=
  (List.range (hi - lo).toNat).map (fun (i : Nat) => lo + i)

/-- `Board.get_king_moves`: the eight adjacent steps, then the kingside
castling candidate (flag `castling[color][0]`, corner file 8), then the
queenside one (flag `castling[color][1]`, corner file 1).  A castling
move is emitted when the corner square holds a piece and every square
strictly between the king's file and that piece's `file` field is empty
(the `for … else` scan of the source); its destination is two files
toward the corner and it carries the corner piece as `castling_rook`. -/
def Board.get_king_moves (b : Board) (piece : Piece) : List Move :=
  let m0 := b.offsetMoves piece kingOffsets []
  let m1 :=
    if (b.castling piece.color).1 then
      match pyGet b.pieces ⟨piece.rank, 8⟩ with
      | some right_rook =>
          if (intRange (piece.file + 1) right_rook.file).all
              (fun f => (pyGet b.pieces ⟨piece.rank, f⟩).isNone) then
            m0 ++ [⟨piece, ⟨piece.rank, piece.file + 2⟩, none, none, some right_rook⟩]
          else
            m0
      | none => m0
    else
      m0
  if (b.castling piece.color).2 then
    match pyGet b.pieces ⟨piece.rank, 1⟩ with
    | some left_rook =>
        if (intRange (left_rook.file + 1) piece.file).all
            (fun f => (pyGet b.pieces ⟨piece.rank, f⟩).isNone) then
          m1 ++ [⟨piece, ⟨piece.rank, piece.file - 2⟩, none, none, some left_rook⟩]
        else
          m1
    | none => m1
  else
    m1

/-- Per-piece dispatch of `Board.get_legal_moves` (the `elif` chain on
the piece type; the enumeration is closed, so the final `raise` of the
source is unreachable). -/
def Board.pieceMoves (b : Board) (piece : Piece) : Option (List Move) :=
  match piece.type with
  | .PAWN => b.get_pawn_moves piece
  | .KNIGHT => some (b.get_knight_moves piece)
  | .BISHOP => some (b.get_bishop_moves piece)
  | .ROOK => some (b.get_rook_moves piece)
  | .QUEEN => some (b.get_queen_moves piece)
  | .KING => some (b.get_king_moves piece)

/-- The iteration of `Board.get_legal_moves` over the piece map in
insertion order, keeping only pieces of the requested color whose move
list is non-empty; a `KeyError` inside pawn generation aborts the whole
query. -/
def Board.legalGo (b : Board) (color : ChessColor) :
    List (Position × Piece) → Option (List (Piece × List Move))
  | [] => some []
  | (_, piece) :: rest =>
      if piece.color = color then
        match b.pieceMoves piece with
        | none => none
        | some moves =>
            match b.legalGo color rest with
            | none => none
            | some acc => some (if moves ≠ [] then (piece, moves) :: acc else acc)
      else
        b.legalGo color rest

/-- `Board.get_legal_moves`. -/
def Board.get_legal_moves (b : Board) (color : ChessColor) :
    Option (List (Piece × List Move)) :=
  b.legalGo color b.pieces

/-- All generated moves of a color, flattened. -/
def legalFlat (lm : List (Piece × List Move)) : List Move :=
  lm.flatMap (fun pm => pm.2)

/-- The sight-set computation at the top of `Board.to_fow_fen` (lines
74–83 of the source): every square occupied by one of the color's own
pieces, then every destination of the color's generated moves.  The
Python `set` is modelled by a list queried through membership. -/
def Board.sightFen (b : Board) (color : ChessColor) : Option (List Position) :=
  (b.get_legal_moves color).map (fun lm =>
    (b.pieces.foldl (fun acc kv =>
        if kv.2.color = color then acc ++ [kv.2.position] else acc) [])
    ++ (legalFlat lm).map (fun m => m.to_position))

/-- The sight-set computation at the top of `Board.to_fow_array` (lines
714–723 of the source) — textually the same algorithm as in
`Board.to_fow_fen`. -/
def Board.sightArray (b : Board) (color : ChessColor) : Option (List Position) :=
  (b.get_legal_moves color).map (fun lm =>
    (b.pieces.foldl (fun acc kv =>
        if kv.2.color = color then acc ++ [kv.2.position] else acc) [])
    ++ (legalFlat lm).map (fun m => m.to_position))

/-- One rank string of the fog FEN: the inner loop of `Board.to_fow_fen`
over files 1..8.  An out-of-sight square flushes the empty counter and
prints the unknown marker `U`; an in-sight square behaves as in
`to_fen`. -/
def fowRankGo (b : Board) (sight : List Position) (rank : Int) :
    List Int → Nat → String → String
  | [], cnt, s => if cnt ≠ 0 then s ++ toString cnt else s
  | f :: rest, cnt, s =>
      if (⟨rank, f⟩ : Position) ∈ sight then
        match pyGet b.pieces ⟨rank, f⟩ with
        | some pc =>
            let s' := if cnt ≠ 0 then s ++ toString cnt else s
            fowRankGo b sight rank rest 0 (s'.push (pieceChar pc))
        | none => fowRankGo b sight rank rest (cnt + 1) s
      else
        let s' := if cnt ≠ 0 then s ++ toString cnt else s
        fowRankGo b sight rank rest 0 (s'.push 'U')

/-- The castling field of the fog FEN: only the observing color's own
rights are shown (`if color == ChessColor.WHITE` in the source; any
non-WHITE observer takes the black branch). -/
def fowCastlingStr (b : Board) (color : ChessColor) : String :=
  let s :=
    match color with
    | .WHITE =>
        (if b.castlingW.1 then "K" else "") ++ (if b.castlingW.2 then "Q" else "")
    | _ =>
        (if b.castlingB.1 then "k" else "") ++ (if b.castlingB.2 then "q" else "")
  if s = "" then "-" else s

/-- `Board.to_fow_fen`: the fog FEN for the given observer, or `none`
when sight computation fails (a `KeyError` in en-passant generation). -/
def Board.to_fow_fen (b : Board) (color : ChessColor) : Option String :=
  (b.sightFen color).map (fun sight =>
    let ranks := rankListRev.map (fun r => fowRankGo b sight r fileList 0 "")
    let side := if b.side_to_move = ChessColor.WHITE then "w" else "b"
    let ep := match b.en_passant with
      | some e => if e ∈ sight then e.to_san else "-"
      | none => "-"
    String.intercalate " "
      [String.intercalate "/" ranks, side, fowCastlingStr b color, ep,
       "0", toString b.fullmove_number])

/-- The rook destination of a castling move in `Board.apply_move`: a
four-way case split on the king's destination square (any destination
other than `c8`, `g8`, `c1` falls to the final `else`, `f1`). -/
def newRookPosition (dest : Position) : Position :=
  if dest = ⟨8, 3⟩ then ⟨8, 4⟩
  else if dest = ⟨8, 7⟩ then ⟨8, 6⟩
  else if dest = ⟨1, 3⟩ then ⟨1, 4⟩
  else ⟨1, 6⟩

/-- The moved piece as `apply_move` leaves the aliased `move.piece`
object: position set to the destination, then the promotion type applied
(the later castling-rights and halfmove tests read these updated
fields). -/
def movedPiece (m : Move) : Piece :=
  let p1 : Piece := { m.piece with position := m.to_position }
  match m.promotion_piece with
  | some ty => { p1 with type := ty }
  | none => p1

/-- The piece map after `apply_move`: delete the origin, delete the
capture target's square, insert the moved (and possibly promoted) piece
at the destination, and relocate the castling rook. -/
def applyPieces (b : Board) (m : Move) : PieceMap :=
  let p1 := pyDel b.pieces m.piece.position
  let p2 := match m.capture_target with
    | some t => pyDel p1 t.position
    | none => p1
  let p3 := pySet p2 m.to_position (movedPiece m)
  match m.castling_rook with
  | some r =>
      let p4 := pyDel p3 r.position
      let nrp := newRookPosition m.to_position
      pySet p4 nrp { r with position := nrp }
  | none => p3

/-- The en-passant target after `apply_move`: cleared, then set to the
square one rank past the origin (toward the moved color's direction) when
the moved piece is a pawn whose rank changed by exactly two. -/
def applyEnPassant (m : Move) : Option Position :=
  if m.piece.type = PieceType.PAWN ∧ (m.piece.rank - m.to_position.rank).natAbs = 2 then
    some ⟨if m.piece.color = ChessColor.BLACK then m.piece.rank - 1 else m.piece.rank + 1,
          m.piece.file⟩
  else
    none

/-- The castling-right pairs after `apply_move` (lines 325–340 of the
source).  The tests read `move.piece.rank`/`.file` after the position
update, i.e. the destination coordinates, and compare them against
rank 7/0 and file 0/7. -/
def applyCastlingRights (b : Board) (m : Move) : (Bool × Bool) × (Bool × Bool) :=
  let mp := movedPiece m
  if mp.type = PieceType.ROOK ∨ mp.type = PieceType.KING then
    if mp.color = ChessColor.WHITE then
      let w1 := if mp.rank = 7 ∧ mp.file = 0 then (false, b.castlingW.2) else b.castlingW
      let w2 := if mp.rank = 7 ∧ mp.file = 7 then (w1.1, false) else w1
      let w3 := if mp.type = PieceType.KING then (false, false) else w2
      (w3, b.castlingB)
    else
      let k1 := if mp.rank = 0 ∧ mp.file = 0 then (false, b.castlingB.2) else b.castlingB
      let k2 := if mp.rank = 0 ∧ mp.file = 7 then (k1.1, false) else k1
      let k3 := if mp.type = PieceType.KING then (false, false) else k2
      (b.castlingW, k3)
  else
    (b.castlingW, b.castlingB)

/-- The side to move after `apply_move` (WHITE iff it was BLACK). -/
def toggleSide : ChessColor → ChessColor
  | .BLACK => .WHITE
  | _ => .BLACK

/-- The board state after all in-place mutations of `apply_move`, before
the two cached serializations are recomputed (they still hold their
pre-move values at this point). -/
def applyCore (b : Board) (m : Move) : Board :=
  let side' := toggleSide b.side_to_move
  let rights := applyCastlingRights b m
  { pieces := applyPieces b m
    castlingW := rights.1
    castlingB := rights.2
    side_to_move := side'
    en_passant := applyEnPassant m
    halfmove_clock :=
      if (movedPiece m).type = PieceType.PAWN ∨ m.capture_target.isSome then 0
      else b.halfmove_clock + 1
    fullmove_number :=
      if side' = ChessColor.WHITE then b.fullmove_number + 1 else b.fullmove_number
    fen := b.fen
    fow_fen := b.fow_fen }

/-- The return value of `apply_move`, computed from the updated board:
the mover's color on a king capture, the DRAW sentinel at a halfmove
clock of 50, otherwise no outcome. -/
def applyResult (b2 : Board) (m : Move) : Option ChessColor :=
  match m.capture_target with
  | some t =>
      if t.type = PieceType.KING then some m.piece.color
      else if 50 ≤ b2.halfmove_clock then some ChessColor.DRAW else none
  | none => if 50 ≤ b2.halfmove_clock then some ChessColor.DRAW else none

/-- `Board.apply_move`: mutate the state, recompute the fog FEN for the
new side to move and then the full FEN, and return the updated board
paired with the game outcome.  The whole call fails (`none`) exactly when
the fog-FEN recomputation fails. -/
def Board.apply_move (b : Board) (m : Move) : Option (Board × Option ChessColor) :=
  let c := applyCore b m
  match c.to_fow_fen c.side_to_move with
  | none => none
  | some fow =>
      let b1 := { c with fow_fen := fow }
      let b2 := { b1 with fen := b1.to_fen }
      some (b2, applyResult b2 m)

/-- The list of `(rank, file)` squares in the order the constructor's
nested loops visit them (rank 1..8 outer, file 1..8 inner). -/
def allSquaresAsc : List (Int × Int) :=
  (List.range 8).flatMap (fun r =>
    (List.range 8).map (fun f => ((r : Int) + 1, (f : Int) + 1)))

/-- One grid cell of the parsed FEN placement, addressed the way the
constructor does (`pieces_on_all_ranks[8 - rank][file - 1]`); a parse
result is an 8×8 grid, so the default is never taken on one. -/
def gridCell (grid : List (List Char)) (rank file : Int) : Char :=
  ((grid.getD (8 - rank).toNat []).getD (file - 1).toNat ' ')

/-- The piece-map construction loop of the `Board` constructor: each
non-blank grid character becomes a piece at that square, keyed by that
square; an unknown character fails the construction. -/
def initPiecesGo (grid : List (List Char)) :
    List (Int × Int) → PieceMap → Option PieceMap
  | [], acc => some acc
  | (r, f) :: rest, acc =>
      let ch := gridCell grid r f
      if ch = ' ' then
        initPiecesGo grid rest acc
      else
        match Piece.ofChar ch ⟨r, f⟩ with
        | some pc => initPiecesGo grid rest (pySet acc ⟨r, f⟩ pc)
        | none => none

/-- The en-passant field handling of the constructor: `-` means no
target, anything else must parse as a square. -/
def epParse (epS : String) : Option (Option Position) :=
  if epS = "-" then some none
  else
    match Position.from_san epS with
    | some p => some (some p)
    | none => none

/-- The board state the constructor has assembled just before it fills
the two caches. -/
def mkBoardCore (pieces : PieceMap) (side : Char) (castlingS : List Char)
    (ep : Option Position) (clock fullmove : Nat) : Board :=
  { pieces := pieces
    castlingW := ('K' ∈ castlingS, 'Q' ∈ castlingS)
    castlingB := ('k' ∈ castlingS, 'q' ∈ castlingS)
    side_to_move := if side = 'w' then .WHITE else .BLACK
    en_passant := ep
    halfmove_clock := clock
    fullmove_number := fullmove
    fen := ""
    fow_fen := "" }

/-- The constructor state after `self.fen = self.to_fen()`. -/
def mkBoardFenned (pieces : PieceMap) (side : Char) (castlingS : List Char)
    (ep : Option Position) (clock fullmove : Nat) : Board :=
  { mkBoardCore pieces side castlingS ep clock fullmove with
    fen := (mkBoardCore pieces side castlingS ep clock fullmove).to_fen }

/-- The `Board` constructor, taken after the external FEN codec: it
receives the parsed placement grid, side-to-move character, castling
string, en-passant field, and the two counters, and builds the board,
finishing by caching `to_fen` and then `to_fow_fen` for the side to
move.  Failure (`none`) covers an unknown piece character, a malformed
en-passant square and a failing fog-FEN computation. -/
def mkBoard (grid : List (List Char)) (side : Char) (castlingS : List Char)
    (epS : String) (clock fullmove : Nat) : Option Board :=
  match initPiecesGo grid allSquaresAsc [] with
  | none => none
  | some pieces =>
      match epParse epS with
      | none => none
      | some ep =>
          match (mkBoardFenned pieces side castlingS ep clock fullmove).to_fow_fen
              (mkBoardFenned pieces side castlingS ep clock fullmove).side_to_move with
          | none => none
          | some fow =>
              some { mkBoardFenned pieces side castlingS ep clock fullmove with
                     fow_fen := fow }

/-- The 8×8×20 boolean tensor, as a function of (rank index, file index,
channel); only cells with both indices in `[0, 8)` and channel below 20
are meaningful. -/
def Arr : Type := Int → Int → Nat → Bool

/-- `np.zeros`: the all-false tensor. -/
def zerosArr : Arr := fun _ _ _ => false

/-- A single-cell write `array[r, f, ch] = v`. -/
def wr (a : Arr) (r f : Int) (ch : Nat) (v : Bool) : Arr :=
  fun r' f' ch' => if r' = r ∧ f' = f ∧ ch' = ch then v else a r' f' ch'

/-- A whole-plane write `array[:, :, ch] = v`. -/
def fillPlane (a : Arr) (ch : Nat) (v : Bool) : Arr :=
  fun r f ch' => if ch' = ch then v else a r f ch'

/-- A bounds-checked single-cell write of `1`, with numpy index
semantics: an index in `[-8, 8)` is accepted (a negative one counting
from the end), anything else raises `IndexError`, modelled as `none`. -/
def npSet (a : Arr) (r f : Int) (ch : Nat) : Option Arr :=
  if -8 ≤ r ∧ r < 8 ∧ -8 ≤ f ∧ f < 8 then
    some (wr a (r % 8) (f % 8) ch true)
  else
    none

/-- The `(rank, file)` index pairs of the nested `for rank in range(8)` /
`for file in range(8)` loops of the tensor codecs. -/
def squares0 : List (Int × Int) :=
  (List.range 8).flatMap (fun r =>
    (List.range 8).map (fun f => ((r : Int), (f : Int))))

/-- Channels 0–4 of both tensor codecs: the four castling-right
broadcasts and the side-to-move broadcast. -/
def headerPlanes (b : Board) : Arr :=
  let a0 := zerosArr
  let a1 := if b.castlingW.1 then fillPlane a0 0 true else a0
  let a2 := if b.castlingW.2 then fillPlane a1 1 true else a1
  let a3 := if b.castlingB.1 then fillPlane a2 2 true else a2
  let a4 := if b.castlingB.2 then fillPlane a3 3 true else a3
  if b.side_to_move = ChessColor.WHITE then fillPlane a4 4 true else a4

/-- The occupancy loop of `Board.to_array`: each occupied square sets its
`7 + color.value * 6 + type.ordinal` plane. -/
def pieceLoop (b : Board) : List (Int × Int) → Arr → Arr
  | [], a => a
  | (r, f) :: rest, a =>
      match pyGet b.pieces ⟨r + 1, f + 1⟩ with
      | some pc => pieceLoop b rest (wr a r f (7 + pc.color.value * 6 + pc.type.ordinal) true)
      | none => pieceLoop b rest a

/-- The en-passant far-rank marking of `Board.to_array`: a target on
rank 3 displays the vulnerable white pawn on row index 0, any other
target the black pawn on row index 7, at the target's file. -/
def epMark (e : Position) (a : Arr) : Option Arr :=
  if e.rank = 3 then
    npSet a 0 (e.file - 1) (7 + ChessColor.WHITE.value * 6 + PieceType.PAWN.ordinal)
  else
    npSet a 7 (e.file - 1) (7 + ChessColor.BLACK.value * 6 + PieceType.PAWN.ordinal)

/-- `Board.to_array`: the full-visibility tensor, `none` when a numpy
write indexes out of the 8×8 plane (in particular the channel-5 one-hot
write for a halfmove clock of 64 or more). -/
def Board.to_array (b : Board) : Option Arr :=
  let a5 := headerPlanes b
  match npSet a5 ((b.halfmove_clock / 8 : Nat) : Int) ((b.halfmove_clock % 8 : Nat) : Int) 5 with
  | none => none
  | some a6 =>
      let a7 := fillPlane a6 6 true
      let a8 := pieceLoop b squares0 a7
      let a9 := match b.en_passant with
        | some e => epMark e a8
        | none => some a8
      match a9 with
      | none => none
      | some a10 => some (fillPlane a10 19 false)

/-- The visibility loop of `Board.to_fow_array`: channel 5 becomes a
per-square sight mask. -/
def visLoop (sight : List Position) : List (Int × Int) → Arr → Arr
  | [], a => a
  | (r, f) :: rest, a =>
      if (⟨r + 1, f + 1⟩ : Position) ∈ sight then
        visLoop sight rest (wr a r f 5 true)
      else
        visLoop sight rest a

/-- The occupancy loop of `Board.to_fow_array`: only squares inside the
sight set contribute to the piece planes. -/
def fowPieceLoop (b : Board) (sight : List Position) : List (Int × Int) → Arr → Arr
  | [], a => a
  | (r, f) :: rest, a =>
      if (⟨r + 1, f + 1⟩ : Position) ∈ sight then
        match pyGet b.pieces ⟨r + 1, f + 1⟩ with
        | some pc =>
            fowPieceLoop b sight rest (wr a r f (7 + pc.color.value * 6 + pc.type.ordinal) true)
        | none => fowPieceLoop b sight rest a
      else
        fowPieceLoop b sight rest a

/-- `Board.to_fow_array`: the fog tensor for the given observer: header
planes, the channel-5 sight mask, the all-ones channel 6, the
sight-restricted occupancy planes, the en-passant far-rank marking
applied only when the target is in sight, and the zeroed channel 19. -/
def Board.to_fow_array (b : Board) (color : ChessColor) : Option Arr :=
  match b.sightArray color with
  | none => none
  | some sight =>
      let a5 := headerPlanes b
      let a6 := visLoop sight squares0 a5
      let a7 := fillPlane a6 6 true
      let a8 := fowPieceLoop b sight squares0 a7
      let a9 := match b.en_passant with
        | some e => if e ∈ sight then epMark e a8 else some a8
        | none => some a8
      match a9 with
      | none => none
      | some a10 => some (fillPlane a10 19 false)

/-- Every binding of the piece map keys a piece that records that very
square as its position (the "at most one piece per Position" invariant's
carrier). -/
def PiecesConsistent (b : Board) : Prop :=
  ∀ k p, (k, p) ∈ b.pieces → p.position = k

/-- Full self-consistency of a board: the piece map keys agree with the
pieces' recorded positions, and both cached serializations agree with
their generators. -/
def BoardConsistent (b : Board) : Prop :=
  PiecesConsistent b ∧ b.fen = b.to_fen ∧
    b.to_fow_fen b.side_to_move = some b.fow_fen

/-- One `apply_move` step whose move is drawn from the current
`get_legal_moves` result of some color. -/
def StepRel (b b' : Board) : Prop :=
  ∃ c lm m r, b.get_legal_moves c = some lm ∧ m ∈ legalFlat lm ∧
    b.apply_move m = some (b', r)

/-- A board produced by the constructor (from any parsed FEN). -/
def IsInit (b : Board) : Prop :=
  ∃ grid side castlingS epS clock fullmove,
    mkBoard grid side castlingS epS clock fullmove = some b

/-- The boards obtainable from the constructor followed by any sequence
of `apply_move` calls whose moves are drawn from the current
`get_legal_moves` result. -/
def Reachable (b : Board) : Prop :=
  ∃ b0, IsInit b0 ∧ Relation.ReflTransGen StepRel b0 b

/-- The moves `add_move_if_not_blocked` appends for a given target and
flag combination (the specification of its effect on the move list). -/
def addedMoves (b : Board) (piece : Piece) (target : Position)
    (can_capture can_promote must_capture : Bool) : List Move :=
  if ¬ target.is_valid then []
  else
    match pyGet b.pieces target with
    | none =>
        if ¬ must_capture then
          if can_promote then promotionTypes.map (fun ty => ⟨piece, target, none, some ty, none⟩)
          else [⟨piece, target, none, none, none⟩]
        else []
    | some tp =>
        if tp.color ≠ piece.color ∧ can_capture then
          if can_promote then promotionTypes.map (fun ty => ⟨piece, target, some tp, some ty, none⟩)
          else [⟨piece, target, some tp, none, none⟩]
        else []

/-- The blocked flag `add_move_if_not_blocked` reports: true for an
off-board target and for any occupied target. -/
def blockedFlag (b : Board) (target : Position) : Bool :=
  if ¬ target.is_valid then true else (pyGet b.pieces target).isSome

/-- The kingside castling candidate of `get_king_moves` (flag index 0,
corner file 8), as the possibly-empty list it appends. -/
def ksPart (b : Board) (piece : Piece) : List Move :=
  if (b.castling piece.color).1 then
    match pyGet b.pieces ⟨piece.rank, 8⟩ with
    | some right_rook =>
        if (intRange (piece.file + 1) right_rook.file).all
            (fun f => (pyGet b.pieces ⟨piece.rank, f⟩).isNone) then
          [⟨piece, ⟨piece.rank, piece.file + 2⟩, none, none, some right_rook⟩]
        else []
    | none => []
  else []

/-- The queenside castling candidate of `get_king_moves` (flag index 1,
corner file 1). -/
def qsPart (b : Board) (piece : Piece) : List Move :=
  if (b.castling piece.color).2 then
    match pyGet b.pieces ⟨piece.rank, 1⟩ with
    | some left_rook =>
        if (intRange (left_rook.file + 1) piece.file).all
            (fun f => (pyGet b.pieces ⟨piece.rank, f⟩).isNone) then
          [⟨piece, ⟨piece.rank, piece.file - 2⟩, none, none, some left_rook⟩]
        else []
    | none => []
  else []

/-- A board with both caches replaced (the shape `apply_move` and the
constructor produce); the game-state fields are untouched. -/
def cacheSet (b : Board) (x y : String) : Board := { b with fen := x, fow_fen := y }

/-- A move is an en-passant-style capture when its capture target does
not stand on the destination square (the distinguishing feature of the
generated en-passant moves). -/
def isEpCapture (m : Move) : Bool :=
  match m.capture_target with
  | some t => t.position ≠ m.to_position
  | none => false

/-- The twelve FEN piece letters. -/
def isPieceLetter (c : Char) : Bool :=
  c ∈ ['P', 'N', 'B', 'R', 'Q', 'K', 'p', 'n', 'b', 'r', 'q', 'k']

/-- A throwaway board used only as the default of `Option.getD` on
computations proved to succeed. -/
def dummyBoard : Board :=
  { pieces := [], castlingW := (false, false), castlingB := (false, false),
    side_to_move := .WHITE, en_passant := none, halfmove_clock := 0,
    fullmove_number := 1, fen := "", fow_fen := "" }

/-- The parsed placement grid of the default starting FEN
`rnbqkbnr/pppppppp/8/8/8/8/PPPPPPPP/RNBQKBNR` (row 0 is rank 8). -/
def startGrid : List (List Char) :=
  [['r','n','b','q','k','b','n','r'],
   ['p','p','p','p','p','p','p','p'],
   [' ',' ',' ',' ',' ',' ',' ',' '],
   [' ',' ',' ',' ',' ',' ',' ',' '],
   [' ',' ',' ',' ',' ',' ',' ',' '],
   [' ',' ',' ',' ',' ',' ',' ',' '],
   ['P','P','P','P','P','P','P','P'],
   ['R','N','B','Q','K','B','N','R']]

/-- The board of the standard starting position, as the constructor
builds it. -/
def startBoard : Board :=
  (mkBoard startGrid 'w' ['K','Q','k','q'] "-" 0 1).getD dummyBoard

/-- White's pawn double-step e2–e4 from the starting position. -/
def mvE4 : Move := ⟨⟨.PAWN, .WHITE, ⟨2,5⟩⟩, ⟨4,5⟩, none, none, none⟩

/-- Black's reply a7–a6. -/
def mvA6 : Move := ⟨⟨.PAWN, .BLACK, ⟨7,1⟩⟩, ⟨6,1⟩, none, none, none⟩

/-- White's advance e4–e5. -/
def mvE5 : Move := ⟨⟨.PAWN, .WHITE, ⟨4,5⟩⟩, ⟨5,5⟩, none, none, none⟩

/-- Black's pawn double-step d7–d5. -/
def mvD5 : Move := ⟨⟨.PAWN, .BLACK, ⟨7,4⟩⟩, ⟨5,4⟩, none, none, none⟩

/-- Board and outcome after 1. e4. -/
def stepE4 : Board × Option ChessColor :=
  (startBoard.apply_move mvE4).getD (dummyBoard, none)

/-- Board and outcome after 1. e4 a6. -/
def stepA6 : Board × Option ChessColor :=
  ((stepE4.1).apply_move mvA6).getD (dummyBoard, none)

/-- Board and outcome after 1. e4 a6 2. e5. -/
def stepE5 : Board × Option ChessColor :=
  ((stepA6.1).apply_move mvE5).getD (dummyBoard, none)

/-- Board and outcome after 1. e4 a6 2. e5 d5. -/
def stepD5 : Board × Option ChessColor :=
  ((stepE5.1).apply_move mvD5).getD (dummyBoard, none)

/-- A small position: white rook a1 and king e1, black rook a8 and king
e8, every castling right still set, white to move. -/
def rookBoard : Board :=
  { pieces := [(⟨1,1⟩, ⟨.ROOK, .WHITE, ⟨1,1⟩⟩), (⟨1,5⟩, ⟨.KING, .WHITE, ⟨1,5⟩⟩),
               (⟨8,5⟩, ⟨.KING, .BLACK, ⟨8,5⟩⟩), (⟨8,1⟩, ⟨.ROOK, .BLACK, ⟨8,1⟩⟩)],
    castlingW := (true, true), castlingB := (true, true),
    side_to_move := .WHITE, en_passant := none, halfmove_clock := 0,
    fullmove_number := 1, fen := "", fow_fen := "" }

/-- The rook move a1–a2 on `rookBoard`. -/
def rookMoveA1A2 : Move := ⟨⟨.ROOK, .WHITE, ⟨1,1⟩⟩, ⟨2,1⟩, none, none, none⟩

/-- A white rook on g6 (with kings on e1/e8), every castling right set. -/
def rookBoardG6 : Board :=
  { pieces := [(⟨6,7⟩, ⟨.ROOK, .WHITE, ⟨6,7⟩⟩), (⟨1,5⟩, ⟨.KING, .WHITE, ⟨1,5⟩⟩),
               (⟨8,5⟩, ⟨.KING, .BLACK, ⟨8,5⟩⟩)],
    castlingW := (true, true), castlingB := (true, true),
    side_to_move := .WHITE, en_passant := none, halfmove_clock := 0,
    fullmove_number := 1, fen := "", fow_fen := "" }

/-- The rook move g6–g7 on `rookBoardG6` (destination rank 7, file 7). -/
def rookMoveG6G7 : Move := ⟨⟨.ROOK, .WHITE, ⟨6,7⟩⟩, ⟨7,7⟩, none, none, none⟩

/-- A board on which a rook capture of the bare black king is available
while the halfmove clock already stands at 60. -/
def kingCaptureBoard : Board :=
  { pieces := [(⟨1,1⟩, ⟨.ROOK, .WHITE, ⟨1,1⟩⟩), (⟨8,1⟩, ⟨.KING, .BLACK, ⟨8,1⟩⟩),
               (⟨1,5⟩, ⟨.KING, .WHITE, ⟨1,5⟩⟩)],
    castlingW := (false, false), castlingB := (false, false),
    side_to_move := .WHITE, en_passant := none, halfmove_clock := 60,
    fullmove_number := 40, fen := "", fow_fen := "" }

/-- The rook capture a1–a8 of the black king on `kingCaptureBoard`. -/
def kingCaptureMove : Move :=
  ⟨⟨.ROOK, .WHITE, ⟨1,1⟩⟩, ⟨8,1⟩, some ⟨.KING, .BLACK, ⟨8,1⟩⟩, none, none⟩

/-- White king e1 and rook h1 with the kingside right set (black king on
e8), the standard kingside-castling position. -/
def castleBoard : Board :=
  { pieces := [(⟨1,5⟩, ⟨.KING, .WHITE, ⟨1,5⟩⟩), (⟨1,8⟩, ⟨.ROOK, .WHITE, ⟨1,8⟩⟩),
               (⟨8,5⟩, ⟨.KING, .BLACK, ⟨8,5⟩⟩)],
    castlingW := (true, false), castlingB := (false, false),
    side_to_move := .WHITE, en_passant := none, halfmove_clock := 0,
    fullmove_number := 1, fen := "", fow_fen := "" }

/-- The board `castleBoard` with an extra white knight on f1, blocking
the castling path. -/
def castleBoardBlocked : Board :=
  { castleBoard with
    pieces := castleBoard.pieces ++ [(⟨1,6⟩, ⟨.KNIGHT, .WHITE, ⟨1,6⟩⟩)] }

/-- White's kingside castling move e1–g1 carrying the h1 rook. -/
def castleMoveE1G1 : Move :=
  ⟨⟨.KING, .WHITE, ⟨1,5⟩⟩, ⟨1,7⟩, none, none, some ⟨.ROOK, .WHITE, ⟨1,8⟩⟩⟩

/-- A white king on e4 with a piece on h4 and the kingside right still
set (a state only reachable through an inconsistent FEN, but accepted by
the constructor's data model). -/
def oddCastleBoard : Board :=
  { pieces := [(⟨4,5⟩, ⟨.KING, .WHITE, ⟨4,5⟩⟩), (⟨4,8⟩, ⟨.ROOK, .WHITE, ⟨4,8⟩⟩)],
    castlingW := (true, false), castlingB := (false, false),
    side_to_move := .WHITE, en_passant := none, halfmove_clock := 0,
    fullmove_number := 1, fen := "", fow_fen := "" }

/-- The castling move e4–g4 that `get_king_moves` emits on
`oddCastleBoard`. -/
def oddCastleMove : Move :=
  ⟨⟨.KING, .WHITE, ⟨4,5⟩⟩, ⟨4,7⟩, none, none, some ⟨.ROOK, .WHITE, ⟨4,8⟩⟩⟩

/-- White pawn e5 beside a black pawn d5 with the en-passant target d6:
the position right after a black d7–d5 double step. -/
def epBoard : Board :=
  { pieces := [(⟨5,5⟩, ⟨.PAWN, .WHITE, ⟨5,5⟩⟩), (⟨5,4⟩, ⟨.PAWN, .BLACK, ⟨5,4⟩⟩)],
    castlingW := (false, false), castlingB := (false, false),
    side_to_move := .WHITE, en_passant := some ⟨6,4⟩, halfmove_clock := 0,
    fullmove_number := 3, fen := "", fow_fen := "" }

/-- The fog tensor of `epBoard` for WHITE. -/
def epBoardFow : Arr := (epBoard.to_fow_array .WHITE).getD zerosArr

/-- The sight set of `epBoard` for WHITE. -/
def epBoardSight : List Position := (epBoard.sightArray .WHITE).getD []

/-- `epBoard` with no en-passant target and a halfmove clock of 17. -/
def clockBoard : Board :=
  { epBoard with en_passant := none, halfmove_clock := 17 }

/-- `clockBoard` with the clock at 64, past the one-hot plane. -/
def clockBoard64 : Board :=
  { clockBoard with halfmove_clock := 64 }

/-- A binding of `pySet d k0 v0` is the new binding or one of `d`. -/
theorem mem_pySet {d : PieceMap} {k0 : Position} {v0 : Piece} {k : Position} {v : Piece}
    (h : (k, v) ∈ pySet d k0 v0) : (k = k0 ∧ v = v0) ∨ (k, v) ∈ d := by
  induction d with
  | nil =>
      simp [pySet] at h
      exact Or.inl ⟨h.1, h.2⟩
  | cons kv rest ih =>
      obtain ⟨k', v'⟩ := kv
      by_cases hk : k' = k0
      · simp [pySet, hk] at h
        rcases h with h | h
        · exact Or.inl ⟨h.1, h.2⟩
        · exact Or.inr (List.mem_cons_of_mem _ h)
      · simp [pySet, hk] at h
        rcases h with h | h
        · exact Or.inr (by simp [h])
        · rcases ih h with h' | h'
          · exact Or.inl h'
          · exact Or.inr (List.mem_cons_of_mem _ h')

/-- A binding of `pyDel d k0` is a binding of `d`. -/
theorem mem_pyDel {d : PieceMap} {k0 : Position} {k : Position} {v : Piece}
    (h : (k, v) ∈ pyDel d k0) : (k, v) ∈ d := by
  induction d with
  | nil => simpa [pyDel] using h
  | cons kv rest ih =>
      obtain ⟨k', v'⟩ := kv
      by_cases hk : k' = k0
      · simp [pyDel, hk] at h
        exact List.mem_cons_of_mem _ h
      · simp [pyDel, hk] at h
        rcases h with h | h
        · simp [h]
        · exact List.mem_cons_of_mem _ (ih h)

/-- A found binding is a member of the map. -/
theorem pyGet_mem {d : PieceMap} {k : Position} {v : Piece}
    (h : pyGet d k = some v) : (k, v) ∈ d := by
  induction d with
  | nil => simp [pyGet] at h
  | cons kv rest ih =>
      obtain ⟨k', v'⟩ := kv
      by_cases hk : k' = k
      · simp [pyGet, hk] at h
        simp [hk, h]
      · simp [pyGet, hk] at h
        exact List.mem_cons_of_mem _ (ih h)

/-- `add_move_if_not_blocked` appends `addedMoves` and reports
`blockedFlag`. -/
theorem add_move_eq (b : Board) (ms : List Move) (piece : Piece) (target : Position)
    (cc cp mc : Bool) :
    b.add_move_if_not_blocked ms piece target cc cp mc =
      (ms ++ addedMoves b piece target cc cp mc, blockedFlag b target) := by
  unfold Board.add_move_if_not_blocked addedMoves blockedFlag
  by_cases hv : target.is_valid
  · cases hget : pyGet b.pieces target with
    | none =>
        by_cases hmc : mc <;> by_cases hcp : cp <;> simp [hv, hget, hmc, hcp]
    | some tp =>
        by_cases hcap : tp.color ≠ piece.color ∧ cc
        · by_cases hcp : cp <;> simp [hv, hget, hcap, hcp]
        · simp [hv, hget, hcap]
  · simp [hv]

/-- Every appended move records the stepping piece and the target, no
castling rook, and either no capture target or precisely the occupant of
the target square. -/
theorem mem_addedMoves {b : Board} {piece : Piece} {target : Position}
    {cc cp mc : Bool} {m : Move} (h : m ∈ addedMoves b piece target cc cp mc) :
    m.piece = piece ∧ m.to_position = target ∧ m.castling_rook = none ∧
      (m.capture_target = none ∨ m.capture_target = pyGet b.pieces target) := by
  unfold addedMoves at h
  by_cases hv : target.is_valid
  · cases hget : pyGet b.pieces target with
    | none =>
        rw [hget] at h
        by_cases hmc : mc <;> by_cases hcp : cp <;>
          simp [hv, hmc, hcp] at h <;>
          first
          | (obtain ⟨ty, _, rfl⟩ := h; simp)
          | (subst h; simp)
    | some tp =>
        rw [hget] at h
        by_cases hcap : tp.color ≠ piece.color ∧ cc
        · by_cases hcp : cp <;>
            simp [hv, hcap, hcp] at h <;>
            first
            | (obtain ⟨ty, _, rfl⟩ := h; simp)
            | (subst h; simp)
        · simp [hv, hcap] at h
  · simp [hv] at h

/-- `to_fen` reads only the game-state fields, never the two caches. -/
theorem to_fen_cache (b : Board) (x y : String) :
    (cacheSet b x y).to_fen = b.to_fen := rfl

/-- `add_move_if_not_blocked` reads only the piece map. -/
theorem add_move_cache (b : Board) (x y : String) :
    (cacheSet b x y).add_move_if_not_blocked = b.add_move_if_not_blocked := rfl

/-- The offset-stepping loop reads only the piece map. -/
theorem offsetMoves_cache (b : Board) (x y : String) (p : Piece) :
    ∀ (offs : List (Int × Int)) (ms : List Move),
      (cacheSet b x y).offsetMoves p offs ms = b.offsetMoves p offs ms := by
  intro offs
  induction offs with
  | nil => intro ms; rfl
  | cons o rest ih =>
      intro ms
      obtain ⟨dx, dy⟩ := o
      simp only [Board.offsetMoves, add_move_cache, ih]

/-- The ray-stepping loop reads only the piece map. -/
theorem rayGo_cache (b : Board) (x y : String) (p : Piece) (dr df : Int) :
    ∀ (fuel : Nat) (i : Int) (ms : List Move),
      (cacheSet b x y).rayGo p dr df fuel i ms = b.rayGo p dr df fuel i ms := by
  intro fuel
  induction fuel with
  | zero => intro i ms; rfl
  | succ n ih =>
      intro i ms
      simp only [Board.rayGo, add_move_cache, ih]

/-- Per-piece move generation reads only the game-state fields. -/
theorem pieceMoves_cache (b : Board) (x y : String) (q : Piece) :
    (cacheSet b x y).pieceMoves q = b.pieceMoves q := by
  cases hty : q.type with
  | PAWN =>
      simp only [Board.pieceMoves, hty]
      cases q.color <;> rfl
  | KNIGHT =>
      simp only [Board.pieceMoves, hty, Board.get_knight_moves, offsetMoves_cache]
  | BISHOP =>
      simp only [Board.pieceMoves, hty, Board.get_bishop_moves, rayGo_cache]
  | ROOK =>
      simp only [Board.pieceMoves, hty, Board.get_rook_moves, rayGo_cache]
  | QUEEN =>
      simp only [Board.pieceMoves, hty, Board.get_queen_moves, Board.get_rook_moves,
        Board.get_bishop_moves, rayGo_cache]
  | KING =>
      simp only [Board.pieceMoves, hty, Board.get_king_moves, offsetMoves_cache]
      rfl

/-- The legal-move iteration reads only the game-state fields. -/
theorem legalGo_cache (b : Board) (x y : String) (c : ChessColor) :
    ∀ l : List (Position × Piece),
      (cacheSet b x y).legalGo c l = b.legalGo c l := by
  intro l
  induction l with
  | nil => rfl
  | cons kv rest ih =>
      obtain ⟨k, q⟩ := kv
      simp only [Board.legalGo, pieceMoves_cache, ih]

/-- `get_legal_moves` reads only the game-state fields. -/
theorem get_legal_moves_cache (b : Board) (x y : String) (c : ChessColor) :
    (cacheSet b x y).get_legal_moves c = b.get_legal_moves c := by
  simp only [Board.get_legal_moves]
  exact legalGo_cache b x y c b.pieces

/-- The fog sight set reads only the game-state fields. -/
theorem sightFen_cache (b : Board) (x y : String) (c : ChessColor) :
    (cacheSet b x y).sightFen c = b.sightFen c := by
  simp only [Board.sightFen, get_legal_moves_cache]
  rfl

/-- `to_fow_fen` reads only the game-state fields, never the caches. -/
theorem to_fow_fen_cache (b : Board) (x y : String) (c : ChessColor) :
    (cacheSet b x y).to_fow_fen c = b.to_fow_fen c := by
  simp only [Board.to_fow_fen, sightFen_cache]
  rfl

/-- Unfolding of a successful `apply_move`: every game-state field of the
returned board is the corresponding `applyCore` field, the two caches
agree with their generators, and the returned outcome is `applyResult`. -/
theorem apply_move_fields {b : Board} {m : Move} {b' : Board} {r : Option ChessColor}
    (h : b.apply_move m = some (b', r)) :
    b'.pieces = applyPieces b m ∧
    b'.castlingW = (applyCastlingRights b m).1 ∧
    b'.castlingB = (applyCastlingRights b m).2 ∧
    b'.side_to_move = toggleSide b.side_to_move ∧
    b'.en_passant = applyEnPassant m ∧
    b'.halfmove_clock = (if (movedPiece m).type = PieceType.PAWN ∨ m.capture_target.isSome
      then 0 else b.halfmove_clock + 1) ∧
    b'.fullmove_number = (if toggleSide b.side_to_move = ChessColor.WHITE
      then b.fullmove_number + 1 else b.fullmove_number) ∧
    b'.fen = b'.to_fen ∧
    b'.to_fow_fen b'.side_to_move = some b'.fow_fen ∧
    r = applyResult b' m := by
  unfold Board.apply_move at h
  cases hfow : (applyCore b m).to_fow_fen (applyCore b m).side_to_move with
  | none => simp [hfow] at h
  | some fow =>
      simp only [hfow, Option.some.injEq, Prod.mk.injEq] at h
      obtain ⟨hb, hr⟩ := h
      subst hb
      refine ⟨rfl, rfl, rfl, rfl, rfl, rfl, rfl, ?_, ?_, hr.symm⟩
      · exact (to_fen_cache (applyCore b m) _ fow).symm
      · calc Board.to_fow_fen _ _
            = (applyCore b m).to_fow_fen (applyCore b m).side_to_move :=
              to_fow_fen_cache (applyCore b m) _ fow _
          _ = some fow := hfow

/-- A move produced by the offset-stepping loop is either carried in or a
step of the given piece without a castling rook. -/
theorem mem_offsetMoves {b : Board} {p : Piece} {m : Move} :
    ∀ {offs : List (Int × Int)} {ms : List Move}, m ∈ b.offsetMoves p offs ms →
      m ∈ ms ∨ (m.piece = p ∧ m.castling_rook = none) := by
  intro offs
  induction offs with
  | nil => intro ms h; exact Or.inl h
  | cons o rest ih =>
      intro ms h
      obtain ⟨dx, dy⟩ := o
      simp only [Board.offsetMoves, add_move_eq] at h
      rcases ih h with h' | h'
      · rcases List.mem_append.mp h' with h'' | h''
        · exact Or.inl h''
        · exact Or.inr ⟨(mem_addedMoves h'').1, (mem_addedMoves h'').2.2.1⟩
      · exact Or.inr h'

/-- A move produced by a ray loop is either carried in or a step of the
given piece without a castling rook. -/
theorem mem_rayGo {b : Board} {p : Piece} {dr df : Int} {m : Move} :
    ∀ {fuel : Nat} {i : Int} {ms : List Move}, m ∈ b.rayGo p dr df fuel i ms →
      m ∈ ms ∨ (m.piece = p ∧ m.castling_rook = none) := by
  intro fuel
  induction fuel with
  | zero => intro i ms h; exact Or.inl h
  | succ n ih =>
      intro i ms h
      simp only [Board.rayGo, add_move_eq] at h
      by_cases hb : blockedFlag b ⟨p.rank + dr * i, p.file + df * i⟩
      · simp only [hb, if_true] at h
        rcases List.mem_append.mp h with h'' | h''
        · exact Or.inl h''
        · exact Or.inr ⟨(mem_addedMoves h'').1, (mem_addedMoves h'').2.2.1⟩
      · simp only [hb, if_false] at h
        rcases ih h with h' | h'
        · rcases List.mem_append.mp h' with h'' | h''
          · exact Or.inl h''
          · exact Or.inr ⟨(mem_addedMoves h'').1, (mem_addedMoves h'').2.2.1⟩
        · exact Or.inr h'

/-- Shape of the non-en-passant white pawn moves: each records the pawn,
no castling rook, a capture target only when it is the occupant of the
destination square, and a destination one rank up (or, for the
double-step from rank 2, on rank 4). -/
theorem mem_white_pawn_base {b : Board} {p : Piece} {m : Move}
    (h : m ∈ b.white_pawn_base p) :
    m.piece = p ∧ m.castling_rook = none ∧
      (m.capture_target = none ∨ m.capture_target = pyGet b.pieces m.to_position) ∧
      (m.to_position.rank = p.rank + 1 ∨ (p.rank = 2 ∧ m.to_position.rank = 4)) := by
  have aux : ∀ (t : Position) (cc cp mc : Bool),
      (t.rank = p.rank + 1 ∨ (p.rank = 2 ∧ t.rank = 4)) →
      m ∈ addedMoves b p t cc cp mc →
      m.piece = p ∧ m.castling_rook = none ∧
        (m.capture_target = none ∨ m.capture_target = pyGet b.pieces m.to_position) ∧
        (m.to_position.rank = p.rank + 1 ∨ (p.rank = 2 ∧ m.to_position.rank = 4)) := by
    intro t cc cp mc ht hm
    obtain ⟨h1, h2, h3, h4⟩ := mem_addedMoves hm
    rw [h2]
    exact ⟨h1, h3, h4, ht⟩
  simp only [Board.white_pawn_base, add_move_eq] at h
  rcases List.mem_append.mp h with h' | h'
  · rcases List.mem_append.mp h' with h'' | h''
    · by_cases h2 : p.rank = 2
      · simp only [h2, if_true, ite_true, List.nil_append] at h''
        by_cases hb : blockedFlag b ⟨3, p.file⟩
        · simp only [hb, Bool.not_true, if_false, ite_false] at h''
          exact aux _ _ _ _ (Or.inl (by rw [h2]; norm_num)) h''
        · simp only [hb, Bool.not_false, if_true, ite_true] at h''
          rcases List.mem_append.mp h'' with h3 | h3
          · exact aux _ _ _ _ (Or.inl (by rw [h2]; norm_num)) h3
          · exact aux _ _ _ _ (Or.inr ⟨h2, rfl⟩) h3
      · by_cases h7 : p.rank ≤ 7
        · simp only [h2, h7, if_false, if_true, ite_false, ite_true, List.nil_append] at h''
          exact aux _ _ _ _ (Or.inl rfl) h''
        · simp only [h2, h7, if_false, ite_false] at h''
          simp at h''
    · exact aux _ _ _ _ (Or.inl rfl) h''
  · exact aux _ _ _ _ (Or.inl rfl) h'

/-- Shape of the non-en-passant black pawn moves: destination one rank
down (or, for the double-step from rank 7, on rank 5). -/
theorem mem_black_pawn_base {b : Board} {p : Piece} {m : Move}
    (h : m ∈ b.black_pawn_base p) :
    m.piece = p ∧ m.castling_rook = none ∧
      (m.capture_target = none ∨ m.capture_target = pyGet b.pieces m.to_position) ∧
      (m.to_position.rank = p.rank - 1 ∨ (p.rank = 7 ∧ m.to_position.rank = 5)) := by
  have aux : ∀ (t : Position) (cc cp mc : Bool),
      (t.rank = p.rank - 1 ∨ (p.rank = 7 ∧ t.rank = 5)) →
      m ∈ addedMoves b p t cc cp mc →
      m.piece = p ∧ m.castling_rook = none ∧
        (m.capture_target = none ∨ m.capture_target = pyGet b.pieces m.to_position) ∧
        (m.to_position.rank = p.rank - 1 ∨ (p.rank = 7 ∧ m.to_position.rank = 5)) := by
    intro t cc cp mc ht hm
    obtain ⟨h1, h2, h3, h4⟩ := mem_addedMoves hm
    rw [h2]
    exact ⟨h1, h3, h4, ht⟩
  simp only [Board.black_pawn_base, add_move_eq] at h
  rcases List.mem_append.mp h with h' | h'
  · rcases List.mem_append.mp h' with h'' | h''
    · by_cases h2 : p.rank = 7
      · simp only [h2, if_true, ite_true, List.nil_append] at h''
        by_cases hb : blockedFlag b ⟨6, p.file⟩
        · simp only [hb, Bool.not_true, if_false, ite_false] at h''
          exact aux _ _ _ _ (Or.inl (by rw [h2]; norm_num)) h''
        · simp only [hb, Bool.not_false, if_true, ite_true] at h''
          rcases List.mem_append.mp h'' with h3 | h3
          · exact aux _ _ _ _ (Or.inl (by rw [h2]; norm_num)) h3
          · exact aux _ _ _ _ (Or.inr ⟨h2, rfl⟩) h3
      · by_cases h7 : 2 ≤ p.rank
        · simp only [h2, h7, if_false, if_true, ite_false, ite_true, List.nil_append] at h''
          exact aux _ _ _ _ (Or.inl rfl) h''
        · simp only [h2, h7, if_false, ite_false] at h''
          simp at h''
    · exact aux _ _ _ _ (Or.inl rfl) h''
  · exact aux _ _ _ _ (Or.inl rfl) h'

/-- Shape of a successful white en-passant part: either the geometric
condition fails and it is empty, or it is exactly the one en-passant
capture of the piece beside the mover. -/
theorem white_pawn_ep_spec {b : Board} {p : Piece} {e : List Move}
    (h : b.white_pawn_ep p = some e) :
    (e = [] ∧ ¬ ∃ ep, b.en_passant = some ep ∧ (p.file - ep.file).natAbs = 1 ∧
        p.rank = 5 ∧ ep.rank = 6) ∨
    (∃ ep t, b.en_passant = some ep ∧ (p.file - ep.file).natAbs = 1 ∧
        p.rank = 5 ∧ ep.rank = 6 ∧ pyGet b.pieces ⟨5, ep.file⟩ = some t ∧
        e = [⟨p, ep, some t, none, none⟩]) := by
  cases hep : b.en_passant with
  | none =>
      simp only [Board.white_pawn_ep, hep, Option.some.injEq] at h
      exact Or.inl ⟨h.symm, by rintro ⟨ep, hc, -⟩; simp [hep] at hc⟩
  | some ep =>
      simp only [Board.white_pawn_ep, hep] at h
      by_cases hc : (p.file - ep.file).natAbs = 1 ∧ p.rank = 5 ∧ ep.rank = 6
      · rw [if_pos hc] at h
        cases hget : pyGet b.pieces ⟨5, ep.file⟩ with
        | none => rw [hget] at h; simp at h
        | some t =>
            rw [hget] at h
            simp at h
            exact Or.inr ⟨ep, t, rfl, hc.1, hc.2.1, hc.2.2, hget, h.symm⟩
      · rw [if_neg hc] at h
        simp at h
        refine Or.inl ⟨h, ?_⟩
        rintro ⟨ep', hc', h1, h2, h3⟩
        cases hc'
        exact hc ⟨h1, h2, h3⟩

/-- Shape of a successful black en-passant part. -/
theorem black_pawn_ep_spec {b : Board} {p : Piece} {e : List Move}
    (h : b.black_pawn_ep p = some e) :
    (e = [] ∧ ¬ ∃ ep, b.en_passant = some ep ∧ (p.file - ep.file).natAbs = 1 ∧
        p.rank = 4 ∧ ep.rank = 3) ∨
    (∃ ep t, b.en_passant = some ep ∧ (p.file - ep.file).natAbs = 1 ∧
        p.rank = 4 ∧ ep.rank = 3 ∧ pyGet b.pieces ⟨4, ep.file⟩ = some t ∧
        e = [⟨p, ep, some t, none, none⟩]) := by
  cases hep : b.en_passant with
  | none =>
      simp only [Board.black_pawn_ep, hep, Option.some.injEq] at h
      exact Or.inl ⟨h.symm, by rintro ⟨ep, hc, -⟩; simp [hep] at hc⟩
  | some ep =>
      simp only [Board.black_pawn_ep, hep] at h
      by_cases hc : (p.file - ep.file).natAbs = 1 ∧ p.rank = 4 ∧ ep.rank = 3
      · rw [if_pos hc] at h
        cases hget : pyGet b.pieces ⟨4, ep.file⟩ with
        | none => rw [hget] at h; simp at h
        | some t =>
            rw [hget] at h
            simp at h
            exact Or.inr ⟨ep, t, rfl, hc.1, hc.2.1, hc.2.2, hget, h.symm⟩
      · rw [if_neg hc] at h
        simp at h
        refine Or.inl ⟨h, ?_⟩
        rintro ⟨ep', hc', h1, h2, h3⟩
        cases hc'
        exact hc ⟨h1, h2, h3⟩

/-- Every move a generator emits for a piece records that piece as its
mover; a generated pawn move additionally steps one rank toward the
pawn's color's direction, except the double-step (rank 2 to 4 for the
white branch, 7 to 5 for the black branch). -/
theorem mem_pieceMoves {b : Board} {q : Piece} {ms : List Move} {m : Move}
    (hq : b.pieceMoves q = some ms) (hm : m ∈ ms) :
    m.piece = q ∧
      (q.type = PieceType.PAWN →
        ((q.color = ChessColor.BLACK ∧
            (m.to_position.rank = q.rank - 1 ∨ (q.rank = 7 ∧ m.to_position.rank = 5))) ∨
         (q.color ≠ ChessColor.BLACK ∧
            (m.to_position.rank = q.rank + 1 ∨ (q.rank = 2 ∧ m.to_position.rank = 4))))) := by
  cases hty : q.type with
  | PAWN =>
      rw [Board.pieceMoves, hty] at hq
      unfold Board.get_pawn_moves at hq
      cases hcol : q.color with
      | BLACK =>
          rw [hcol] at hq
          unfold Board.get_black_pawn_moves at hq
          cases hep : b.black_pawn_ep q with
          | none => rw [hep] at hq; simp at hq
          | some e =>
              rw [hep] at hq
              simp at hq
              rw [← hq] at hm
              rcases List.mem_append.mp hm with h' | h'
              · obtain ⟨h1, -, -, h4⟩ := mem_black_pawn_base h'
                exact ⟨h1, fun _ => Or.inl ⟨rfl, h4⟩⟩
              · rcases black_pawn_ep_spec hep with ⟨he, -⟩ | ⟨ep, t, -, -, hr4, hr3, -, he⟩
                · rw [he] at h'; simp at h'
                · rw [he] at h'
                  simp at h'
                  subst h'
                  refine ⟨rfl, fun _ => Or.inl ⟨rfl, Or.inl ?_⟩⟩
                  simp [hr4, hr3]
      | WHITE =>
          rw [hcol] at hq
          unfold Board.get_white_pawn_moves at hq
          cases hep : b.white_pawn_ep q with
          | none => rw [hep] at hq; simp at hq
          | some e =>
              rw [hep] at hq
              simp at hq
              rw [← hq] at hm
              rcases List.mem_append.mp hm with h' | h'
              · obtain ⟨h1, -, -, h4⟩ := mem_white_pawn_base h'
                exact ⟨h1, fun _ => Or.inr ⟨by simp [hcol], h4⟩⟩
              · rcases white_pawn_ep_spec hep with ⟨he, -⟩ | ⟨ep, t, -, -, hr5, hr6, -, he⟩
                · rw [he] at h'; simp at h'
                · rw [he] at h'
                  simp at h'
                  subst h'
                  refine ⟨rfl, fun _ => Or.inr ⟨by simp [hcol], Or.inl ?_⟩⟩
                  simp [hr5, hr6]
      | DRAW =>
          rw [hcol] at hq
          unfold Board.get_white_pawn_moves at hq
          cases hep : b.white_pawn_ep q with
          | none => rw [hep] at hq; simp at hq
          | some e =>
              rw [hep] at hq
              simp at hq
              rw [← hq] at hm
              rcases List.mem_append.mp hm with h' | h'
              · obtain ⟨h1, -, -, h4⟩ := mem_white_pawn_base h'
                exact ⟨h1, fun _ => Or.inr ⟨by simp [hcol], h4⟩⟩
              · rcases white_pawn_ep_spec hep with ⟨he, -⟩ | ⟨ep, t, -, -, hr5, hr6, -, he⟩
                · rw [he] at h'; simp at h'
                · rw [he] at h'
                  simp at h'
                  subst h'
                  refine ⟨rfl, fun _ => Or.inr ⟨by simp [hcol], Or.inl ?_⟩⟩
                  simp [hr5, hr6]
  | KNIGHT =>
      rw [Board.pieceMoves, hty] at hq
      simp at hq
      rw [← hq] at hm
      rcases mem_offsetMoves hm with h' | h'
      · simp at h'
      · exact ⟨h'.1, by simp [hty]⟩
  | BISHOP =>
      rw [Board.pieceMoves, hty] at hq
      simp at hq
      rw [← hq] at hm
      unfold Board.get_bishop_moves at hm
      rcases mem_rayGo hm with h' | h'
      · rcases mem_rayGo h' with h'' | h''
        · rcases mem_rayGo h'' with h3 | h3
          · rcases mem_rayGo h3 with h4 | h4
            · simp at h4
            · exact ⟨h4.1, by simp [hty]⟩
          · exact ⟨h3.1, by simp [hty]⟩
        · exact ⟨h''.1, by simp [hty]⟩
      · exact ⟨h'.1, by simp [hty]⟩
  | ROOK =>
      rw [Board.pieceMoves, hty] at hq
      simp at hq
      rw [← hq] at hm
      unfold Board.get_rook_moves at hm
      rcases mem_rayGo hm with h' | h'
      · rcases mem_rayGo h' with h'' | h''
        · rcases mem_rayGo h'' with h3 | h3
          · rcases mem_rayGo h3 with h4 | h4
            · simp at h4
            · exact ⟨h4.1, by simp [hty]⟩
          · exact ⟨h3.1, by simp [hty]⟩
        · exact ⟨h''.1, by simp [hty]⟩
      · exact ⟨h'.1, by simp [hty]⟩
  | QUEEN =>
      rw [Board.pieceMoves, hty] at hq
      simp at hq
      rw [← hq] at hm
      unfold Board.get_queen_moves at hm
      rcases List.mem_append.mp hm with h' | h'
      · unfold Board.get_rook_moves at h'
        rcases mem_rayGo h' with h1 | h1
        · rcases mem_rayGo h1 with h2 | h2
          · rcases mem_rayGo h2 with h3 | h3
            · rcases mem_rayGo h3 with h4 | h4
              · simp at h4
              · exact ⟨h4.1, by simp [hty]⟩
            · exact ⟨h3.1, by simp [hty]⟩
          · exact ⟨h2.1, by simp [hty]⟩
        · exact ⟨h1.1, by simp [hty]⟩
      · unfold Board.get_bishop_moves at h'
        rcases mem_rayGo h' with h1 | h1
        · rcases mem_rayGo h1 with h2 | h2
          · rcases mem_rayGo h2 with h3 | h3
            · rcases mem_rayGo h3 with h4 | h4
              · simp at h4
              · exact ⟨h4.1, by simp [hty]⟩
            · exact ⟨h3.1, by simp [hty]⟩
          · exact ⟨h2.1, by simp [hty]⟩
        · exact ⟨h1.1, by simp [hty]⟩
  | KING =>
      rw [Board.pieceMoves, hty] at hq
      simp at hq
      rw [← hq] at hm
      unfold Board.get_king_moves at hm
      have offs : ∀ m', m' ∈ b.offsetMoves q kingOffsets [] → m'.piece = q := by
        intro m' hm'
        rcases mem_offsetMoves hm' with h' | h'
        · simp at h'
        · exact h'.1
      have fin : ∀ (mv : Move) (base : List Move) (extra : List Move),
          (∀ m', m' ∈ base → m'.piece = q) → (∀ m', m' ∈ extra → m'.piece = q) →
          mv ∈ base ++ extra → mv.piece = q := by
        intro mv base extra hb he hmem
        rcases List.mem_append.mp hmem with h' | h'
        · exact hb _ h'
        · exact he _ h'
      refine ⟨?_, by simp [hty]⟩
      by_cases hk : (b.castling q.color).1
      · simp only [hk, if_true, ite_true] at hm
        cases hrr : pyGet b.pieces ⟨q.rank, 8⟩ with
        | some right_rook =>
            rw [hrr] at hm
            by_cases hempty : (intRange (q.file + 1) right_rook.file).all
                (fun f => (pyGet b.pieces ⟨q.rank, f⟩).isNone)
            · simp only [hempty, if_true, ite_true] at hm
              by_cases hq2 : (b.castling q.color).2
              · simp only [hq2, if_true, ite_true] at hm
                cases hlr : pyGet b.pieces ⟨q.rank, 1⟩ with
                | some left_rook =>
                    rw [hlr] at hm
                    by_cases hempty2 : (intRange (left_rook.file + 1) q.file).all
                        (fun f => (pyGet b.pieces ⟨q.rank, f⟩).isNone)
                    · simp only [hempty2, if_true, ite_true] at hm
                      refine fin _ _ _ ?_ (by intro m' hm'; simp at hm'; rw [hm']) hm
                      intro m' hm'
                      exact fin _ _ _ offs (by intro m2 hm2; simp at hm2; rw [hm2]) hm'
                    · simp only [hempty2, if_false, ite_false] at hm
                      exact fin _ _ _ offs (by intro m2 hm2; simp at hm2; rw [hm2]) hm
                | none =>
                    rw [hlr] at hm
                    exact fin _ _ _ offs (by intro m2 hm2; simp at hm2; rw [hm2]) hm
              · simp only [hq2, if_false, ite_false] at hm
                exact fin _ _ _ offs (by intro m2 hm2; simp at hm2; rw [hm2]) hm
            · simp only [hempty, if_false, ite_false] at hm
              by_cases hq2 : (b.castling q.color).2
              · simp only [hq2, if_true, ite_true] at hm
                cases hlr : pyGet b.pieces ⟨q.rank, 1⟩ with
                | some left_rook =>
                    rw [hlr] at hm
                    by_cases hempty2 : (intRange (left_rook.file + 1) q.file).all
                        (fun f => (pyGet b.pieces ⟨q.rank, f⟩).isNone)
                    · simp only [hempty2, if_true, ite_true] at hm
                      exact fin _ _ _ offs (by intro m2 hm2; simp at hm2; rw [hm2]) hm
                    · simp only [hempty2, if_false, ite_false] at hm
                      exact offs _ hm
                | none =>
                    rw [hlr] at hm
                    exact offs _ hm
              · simp only [hq2, if_false, ite_false] at hm
                exact offs _ hm
        | none =>
            rw [hrr] at hm
            by_cases hq2 : (b.castling q.color).2
            · simp only [hq2, if_true, ite_true] at hm
              cases hlr : pyGet b.pieces ⟨q.rank, 1⟩ with
              | some left_rook =>
                  rw [hlr] at hm
                  by_cases hempty2 : (intRange (left_rook.file + 1) q.file).all
                      (fun f => (pyGet b.pieces ⟨q.rank, f⟩).isNone)
                  · simp only [hempty2, if_true, ite_true] at hm
                    exact fin _ _ _ offs (by intro m2 hm2; simp at hm2; rw [hm2]) hm
                  · simp only [hempty2, if_false, ite_false] at hm
                    exact offs _ hm
              | none =>
                  rw [hlr] at hm
                  exact offs _ hm
            · simp only [hq2, if_false, ite_false] at hm
              exact offs _ hm
      · simp only [hk, if_false, ite_false] at hm
        by_cases hq2 : (b.castling q.color).2
        · simp only [hq2, if_true, ite_true] at hm
          cases hlr : pyGet b.pieces ⟨q.rank, 1⟩ with
          | some left_rook =>
              rw [hlr] at hm
              by_cases hempty2 : (intRange (left_rook.file + 1) q.file).all
                  (fun f => (pyGet b.pieces ⟨q.rank, f⟩).isNone)
              · simp only [hempty2, if_true, ite_true] at hm
                exact fin _ _ _ offs (by intro m2 hm2; simp at hm2; rw [hm2]) hm
              · simp only [hempty2, if_false, ite_false] at hm
                exact offs _ hm
          | none =>
              rw [hlr] at hm
              exact offs _ hm
        · simp only [hq2, if_false, ite_false] at hm
          exact offs _ hm

/-- Every entry of a successful `legalGo` result pairs a piece of the
requested color with its own generated (non-empty) move list. -/
theorem legalGo_mem {b : Board} {c : ChessColor} :
    ∀ {l : List (Position × Piece)} {lm : List (Piece × List Move)},
      b.legalGo c l = some lm → ∀ {q : Piece} {ms : List Move}, (q, ms) ∈ lm →
        q.color = c ∧ b.pieceMoves q = some ms := by
  intro l
  induction l with
  | nil =>
      intro lm h q ms hm
      simp only [Board.legalGo, Option.some.injEq] at h
      subst h
      simp at hm
  | cons kv rest ih =>
      intro lm h q ms hm
      obtain ⟨k, p⟩ := kv
      by_cases hcol : p.color = c
      · simp only [Board.legalGo, hcol, if_true, ite_true] at h
        cases hpm : b.pieceMoves p with
        | none => rw [hpm] at h; simp at h
        | some moves =>
            rw [hpm] at h
            cases hrec : b.legalGo c rest with
            | none => rw [hrec] at h; simp at h
            | some acc =>
                rw [hrec] at h
                simp only [Option.some.injEq] at h
                rw [← h] at hm
                by_cases hne : moves ≠ []
                · rw [if_pos hne] at hm
                  rcases List.mem_cons.mp hm with h' | h'
                  · cases h'
                    exact ⟨hcol, hpm⟩
                  · exact ih hrec h'
                · rw [if_neg hne] at hm
                  exact ih hrec hm
      · simp only [Board.legalGo, hcol, if_false, ite_false] at h
        exact ih h hm

/-- Every move of a successful `get_legal_moves` result was generated by
`pieceMoves` for a piece of the requested color. -/
theorem mem_legalFlat {b : Board} {c : ChessColor} {lm : List (Piece × List Move)} {m : Move}
    (h : b.get_legal_moves c = some lm) (hm : m ∈ legalFlat lm) :
    ∃ q ms, q.color = c ∧ b.pieceMoves q = some ms ∧ m ∈ ms := by
  unfold legalFlat at hm
  rcases List.mem_flatMap.mp hm with ⟨⟨q, ms⟩, hqm, hmm⟩
  obtain ⟨h1, h2⟩ := legalGo_mem h hqm
  exact ⟨q, ms, h1, h2, hmm⟩

/-- C1: the claim states that a rook moving from its original corner
square clears the corresponding castling flag.  The code tests
`move.piece.rank`/`.file` after the position update (the destination)
against rank 7/0 and file 0/7, so the white rook's legal move a1–a2
leaves every flag set — and, conversely, a white rook landing on g7
(rank 7, file 7) clears white's queenside flag although it never touched
a corner.  This theorem evaluates `apply_move` at both failing inputs. -/
theorem claim_C1_rook_corner_rights_not_cleared :
    rookMoveA1A2 ∈ legalFlat ((rookBoard.get_legal_moves ChessColor.WHITE).getD []) ∧
    (rookBoard.apply_move rookMoveA1A2).map (fun x => (x.1.castlingW, x.1.castlingB)) =
      some ((true, true), (true, true)) ∧
    rookMoveG6G7 ∈ legalFlat ((rookBoardG6.get_legal_moves ChessColor.WHITE).getD []) ∧
    (rookBoardG6.apply_move rookMoveG6G7).map (fun x => x.1.castlingW) =
      some (true, false) := by
  refine ⟨by decide, by decide, by decide, by decide⟩

/-- C2: the outcome `apply_move` returns is the mover's color when the
capture target is a king (regardless of the clock), else the DRAW
sentinel when the updated halfmove clock has reached 50, else none. -/
theorem claim_C2_apply_move_outcome (b : Board) (m : Move) (b' : Board)
    (r : Option ChessColor) (h : b.apply_move m = some (b', r)) :
    r = match m.capture_target with
      | some t =>
          if t.type = PieceType.KING then some m.piece.color
          else if 50 ≤ b'.halfmove_clock then some ChessColor.DRAW else none
      | none => if 50 ≤ b'.halfmove_clock then some ChessColor.DRAW else none := by
  have hf := apply_move_fields h
  calc r = applyResult b' m := hf.2.2.2.2.2.2.2.2.2
    _ = _ := rfl

/-- Witness for C2: a rook capture of the king with the clock at 60
reports the capturing side, not the draw. -/
theorem claim_C2_witness :
    (some ChessColor.WHITE : Option ChessColor) =
      match kingCaptureMove.capture_target with
      | some t =>
          if t.type = PieceType.KING then some kingCaptureMove.piece.color
          else if 50 ≤ ((kingCaptureBoard.apply_move kingCaptureMove).getD
              (dummyBoard, none)).1.halfmove_clock then some ChessColor.DRAW else none
      | none =>
          if 50 ≤ ((kingCaptureBoard.apply_move kingCaptureMove).getD
              (dummyBoard, none)).1.halfmove_clock then some ChessColor.DRAW else none :=
  claim_C2_apply_move_outcome kingCaptureBoard kingCaptureMove
    ((kingCaptureBoard.apply_move kingCaptureMove).getD (dummyBoard, none)).1
    (some ChessColor.WHITE) (by decide)

/-- C8: after a legal move is applied, the en-passant field holds the
square on the moved pawn's origin file whose rank lies strictly between
origin and destination iff the moved piece was a pawn whose rank changed
by exactly two; every other applied move leaves the field cleared. -/
theorem claim_C8_en_passant_update (b : Board) (c : ChessColor)
    (lm : List (Piece × List Move)) (m : Move) (b' : Board) (r : Option ChessColor)
    (hlm : b.get_legal_moves c = some lm) (hm : m ∈ legalFlat lm)
    (h : b.apply_move m = some (b', r)) :
    (¬ (m.piece.type = PieceType.PAWN ∧ (m.piece.rank - m.to_position.rank).natAbs = 2) →
       b'.en_passant = none) ∧
    ((m.piece.type = PieceType.PAWN ∧ (m.piece.rank - m.to_position.rank).natAbs = 2) →
       b'.en_passant = some ⟨(m.piece.rank + m.to_position.rank) / 2, m.piece.file⟩ ∧
       ((m.piece.rank < (m.piece.rank + m.to_position.rank) / 2 ∧
          (m.piece.rank + m.to_position.rank) / 2 < m.to_position.rank) ∨
        (m.to_position.rank < (m.piece.rank + m.to_position.rank) / 2 ∧
          (m.piece.rank + m.to_position.rank) / 2 < m.piece.rank))) := by
  have hep : b'.en_passant = applyEnPassant m := (apply_move_fields h).2.2.2.2.1
  constructor
  · intro hnc
    rw [hep]
    unfold applyEnPassant
    rw [if_neg hnc]
  · intro hc
    obtain ⟨q, ms, hcol, hq, hmem⟩ := mem_legalFlat hlm hm
    obtain ⟨hpq, hdir⟩ := mem_pieceMoves hq hmem
    rw [hep]
    unfold applyEnPassant
    rw [if_pos hc]
    rcases hdir (by rw [← hpq]; exact hc.1) with ⟨hcb, hrk⟩ | ⟨hcb, hrk⟩
    · -- black branch: the double step goes from rank 7 to rank 5
      have hcolb : m.piece.color = ChessColor.BLACK := by rw [hpq]; exact hcb
      rcases hrk with h1 | ⟨h7, h5⟩
      · exfalso
        have : m.to_position.rank = m.piece.rank - 1 := by rw [hpq]; exact h1
        have h2 := hc.2
        omega
      · have hq7 : m.piece.rank = 7 := by rw [hpq]; exact h7
        rw [hcolb, hq7, h5]
        norm_num
    · -- white branch: the double step goes from rank 2 to rank 4
      have hcolw : m.piece.color ≠ ChessColor.BLACK := by rw [hpq]; exact hcb
      rcases hrk with h1 | ⟨h2, h4⟩
      · exfalso
        have : m.to_position.rank = m.piece.rank + 1 := by rw [hpq]; exact h1
        have h2 := hc.2
        omega
      · have hq2 : m.piece.rank = 2 := by rw [hpq]; exact h2
        rw [if_neg hcolw, hq2, h4]
        norm_num

/-- Witness for C8: applying 1. e4 from the starting position sets the
en-passant target to e3 (the square strictly between e2 and e4). -/
theorem claim_C8_witness :
    (¬ (mvE4.piece.type = PieceType.PAWN ∧
          (mvE4.piece.rank - mvE4.to_position.rank).natAbs = 2) →
       stepE4.1.en_passant = none) ∧
    ((mvE4.piece.type = PieceType.PAWN ∧
          (mvE4.piece.rank - mvE4.to_position.rank).natAbs = 2) →
       stepE4.1.en_passant =
         some ⟨(mvE4.piece.rank + mvE4.to_position.rank) / 2, mvE4.piece.file⟩ ∧
       ((mvE4.piece.rank < (mvE4.piece.rank + mvE4.to_position.rank) / 2 ∧
          (mvE4.piece.rank + mvE4.to_position.rank) / 2 < mvE4.to_position.rank) ∨
        (mvE4.to_position.rank < (mvE4.piece.rank + mvE4.to_position.rank) / 2 ∧
          (mvE4.piece.rank + mvE4.to_position.rank) / 2 < mvE4.piece.rank))) :=
  claim_C8_en_passant_update startBoard ChessColor.WHITE
    ((startBoard.get_legal_moves ChessColor.WHITE).getD []) mvE4 stepE4.1 stepE4.2
    (by rfl) (by decide) (by rfl)

/-- C3: the four cases of the shared step primitive.  An off-board
target adds nothing and reports blocked; an empty target reports not
blocked and adds one quiet move unless `must_capture` (the four
promotion variants when `can_promote`); an enemy-occupied target reports
blocked, adding one capture iff `can_capture` (four promotion-capture
variants when `can_promote`); an own-color-occupied target reports
blocked and adds nothing. -/
theorem claim_C3_step_primitive (b : Board) (ms : List Move) (p : Piece)
    (t : Position) (cc cp mc : Bool) :
    (¬ t.is_valid → b.add_move_if_not_blocked ms p t cc cp mc = (ms, true)) ∧
    (t.is_valid → pyGet b.pieces t = none →
      b.add_move_if_not_blocked ms p t cc cp mc =
        (ms ++ (if mc then []
                else if cp then promotionTypes.map (fun ty => ⟨p, t, none, some ty, none⟩)
                else [⟨p, t, none, none, none⟩]), false)) ∧
    (∀ tp, t.is_valid → pyGet b.pieces t = some tp → tp.color ≠ p.color →
      b.add_move_if_not_blocked ms p t cc cp mc =
        (ms ++ (if cc then
                  (if cp then promotionTypes.map (fun ty => ⟨p, t, some tp, some ty, none⟩)
                   else [⟨p, t, some tp, none, none⟩])
                else []), true)) ∧
    (∀ tp, t.is_valid → pyGet b.pieces t = some tp → tp.color = p.color →
      b.add_move_if_not_blocked ms p t cc cp mc = (ms, true)) := by
  refine ⟨?_, ?_, ?_, ?_⟩
  · intro hv
    rw [add_move_eq]
    unfold addedMoves blockedFlag
    simp [hv]
  · intro hv hget
    rw [add_move_eq]
    unfold addedMoves blockedFlag
    rw [if_neg (by simpa using hv), hget]
    cases mc <;> cases cp <;> simp [hv]
  · intro tp hv hget hcol
    rw [add_move_eq]
    unfold addedMoves blockedFlag
    rw [if_neg (by simpa using hv), hget]
    cases cc <;> cases cp <;> simp [hv, hcol]
  · intro tp hv hget hcol
    rw [add_move_eq]
    unfold addedMoves blockedFlag
    rw [if_neg (by simpa using hv), hget]
    simp [hv, hcol]

/-- Witness for C3: the four cases evaluated on `rookBoard` — an
off-board square, the empty a3, the enemy king e8 and the own king e1. -/
theorem claim_C3_witness :
    rookBoard.add_move_if_not_blocked [] ⟨.ROOK, .WHITE, ⟨1,1⟩⟩ ⟨0,1⟩ true false false
      = ([], true) ∧
    rookBoard.add_move_if_not_blocked [] ⟨.ROOK, .WHITE, ⟨1,1⟩⟩ ⟨3,1⟩ true false false
      = ([⟨⟨.ROOK, .WHITE, ⟨1,1⟩⟩, ⟨3,1⟩, none, none, none⟩], false) ∧
    rookBoard.add_move_if_not_blocked [] ⟨.ROOK, .WHITE, ⟨1,1⟩⟩ ⟨8,5⟩ true false false
      = ([⟨⟨.ROOK, .WHITE, ⟨1,1⟩⟩, ⟨8,5⟩, some ⟨.KING, .BLACK, ⟨8,5⟩⟩, none, none⟩], true) ∧
    rookBoard.add_move_if_not_blocked [] ⟨.ROOK, .WHITE, ⟨1,1⟩⟩ ⟨1,5⟩ true false false
      = ([], true) := by
  refine ⟨(claim_C3_step_primitive rookBoard [] _ _ true false false).1 (by decide),
    ?_, ?_, ?_⟩
  · have h := (claim_C3_step_primitive rookBoard [] ⟨.ROOK, .WHITE, ⟨1,1⟩⟩ ⟨3,1⟩
      true false false).2.1 (by decide) (by decide)
    simpa using h
  · have h := (claim_C3_step_primitive rookBoard [] ⟨.ROOK, .WHITE, ⟨1,1⟩⟩ ⟨8,5⟩
      true false false).2.2.1 ⟨.KING, .BLACK, ⟨8,5⟩⟩ (by decide) (by decide) (by decide)
    simpa using h
  · exact (claim_C3_step_primitive rookBoard [] ⟨.ROOK, .WHITE, ⟨1,1⟩⟩ ⟨1,5⟩
      true false false).2.2.2 ⟨.KING, .WHITE, ⟨1,5⟩⟩ (by decide) (by decide) (by decide)

/-- The moved piece ends on the destination square. -/
theorem movedPiece_position (m : Move) : (movedPiece m).position = m.to_position := by
  unfold movedPiece
  cases m.promotion_piece <;> rfl

/-- A piece built from a FEN letter records the given position. -/
theorem ofChar_position {c : Char} {pos : Position} {pc : Piece}
    (h : Piece.ofChar c pos = some pc) : pc.position = pos := by
  unfold Piece.ofChar at h
  split at h <;>
    first
    | (simp only [Option.some.injEq] at h; subst h; rfl)
    | simp at h

/-- `applyPieces` keeps every binding keyed by its piece's position. -/
theorem applyPieces_consistent {b : Board} {m : Move}
    (hb : ∀ k p, (k, p) ∈ b.pieces → p.position = k) :
    ∀ k p, (k, p) ∈ applyPieces b m → p.position = k := by
  intro k p hm
  have hp1 : ∀ k' p', (k', p') ∈ pyDel b.pieces m.piece.position → p'.position = k' :=
    fun k' p' h => hb _ _ (mem_pyDel h)
  have hp2 : ∀ k' p',
      (k', p') ∈ (match m.capture_target with
        | some t => pyDel (pyDel b.pieces m.piece.position) t.position
        | none => pyDel b.pieces m.piece.position) → p'.position = k' := by
    cases m.capture_target with
    | some t => intro k' p' h; exact hp1 _ _ (mem_pyDel h)
    | none => exact hp1
  have hp3 : ∀ k' p',
      (k', p') ∈ pySet (match m.capture_target with
        | some t => pyDel (pyDel b.pieces m.piece.position) t.position
        | none => pyDel b.pieces m.piece.position) m.to_position (movedPiece m) →
      p'.position = k' := by
    intro k' p' h
    rcases mem_pySet h with ⟨rfl, rfl⟩ | h'
    · exact movedPiece_position m
    · exact hp2 _ _ h'
  simp only [applyPieces] at hm
  cases hcr : m.castling_rook with
  | some r =>
      rw [hcr] at hm
      rcases mem_pySet hm with ⟨rfl, rfl⟩ | h'
      · rfl
      · exact hp3 _ _ (mem_pyDel h')
  | none =>
      rw [hcr] at hm
      exact hp3 _ _ hm

/-- The constructor's piece loop keeps every binding keyed by its
piece's position. -/
theorem initPiecesGo_consistent {grid : List (List Char)} :
    ∀ {squares : List (Int × Int)} {acc pieces : PieceMap},
      (∀ k p, (k, p) ∈ acc → p.position = k) →
      initPiecesGo grid squares acc = some pieces →
      ∀ k p, (k, p) ∈ pieces → p.position = k := by
  intro squares
  induction squares with
  | nil =>
      intro acc pieces hacc h
      simp only [initPiecesGo, Option.some.injEq] at h
      subst h
      exact hacc
  | cons rf rest ih =>
      intro acc pieces hacc h
      obtain ⟨r, f⟩ := rf
      by_cases hch : gridCell grid r f = ' '
      · simp only [initPiecesGo, hch, if_true, ite_true] at h
        exact ih hacc h
      · simp only [initPiecesGo, hch, if_false, ite_false] at h
        cases hoc : Piece.ofChar (gridCell grid r f) ⟨r, f⟩ with
        | none => rw [hoc] at h; simp at h
        | some pc =>
            rw [hoc] at h
            refine ih ?_ h
            intro k p hkp
            rcases mem_pySet hkp with ⟨rfl, rfl⟩ | h'
            · exact ofChar_position hoc
            · exact hacc _ _ h'

/-- Every board the constructor returns is fully self-consistent. -/
theorem mkBoard_consistent {grid : List (List Char)} {side : Char}
    {castlingS : List Char} {epS : String} {clock fullmove : Nat} {b : Board}
    (h : mkBoard grid side castlingS epS clock fullmove = some b) :
    BoardConsistent b := by
  unfold mkBoard at h
  cases hip : initPiecesGo grid allSquaresAsc [] with
  | none => simp only [hip] at h; exact absurd h (by simp)
  | some pieces =>
      simp only [hip] at h
      cases hep : epParse epS with
      | none => simp only [hep] at h; exact absurd h (by simp)
      | some ep =>
          simp only [hep] at h
          cases hfow : (mkBoardFenned pieces side castlingS ep clock fullmove).to_fow_fen
              (mkBoardFenned pieces side castlingS ep clock fullmove).side_to_move with
          | none => simp only [hfow] at h; exact absurd h (by simp)
          | some fow =>
              simp only [hfow, Option.some.injEq] at h
              subst h
              refine ⟨?_, ?_, ?_⟩
              · intro k p hkp
                exact initPiecesGo_consistent (by simp) hip _ _ hkp
              · exact (to_fen_cache
                  (mkBoardCore pieces side castlingS ep clock fullmove) _ _).symm
              · calc Board.to_fow_fen _ _
                    = (mkBoardFenned pieces side castlingS ep clock fullmove).to_fow_fen
                        (mkBoardFenned pieces side castlingS ep clock fullmove).side_to_move :=
                      to_fow_fen_cache
                        (mkBoardFenned pieces side castlingS ep clock fullmove) _ fow _
                  _ = some fow := hfow

/-- A successful `apply_move` returns a fully self-consistent board
whenever the input piece map was consistently keyed. -/
theorem apply_move_consistent {b : Board} {m : Move} {b' : Board} {r : Option ChessColor}
    (hb : PiecesConsistent b) (h : b.apply_move m = some (b', r)) :
    BoardConsistent b' := by
  obtain ⟨hp, -, -, -, -, -, -, hfen, hfow, -⟩ := apply_move_fields h
  refine ⟨?_, hfen, hfow⟩
  intro k p hkp
  rw [hp] at hkp
  exact applyPieces_consistent hb _ _ hkp

/-- C9: every board obtained from the constructor and any sequence of
applied legal moves is self-consistent: each piece-map binding keys its
piece's own position (hence at most one piece per square), and the two
cached serializations agree with their generators. -/
theorem claim_C9_self_consistency (b : Board) (h : Reachable b) : BoardConsistent b := by
  obtain ⟨b0, ⟨grid, side, cs, eps, clk, fm, hmk⟩, hsteps⟩ := h
  have base := mkBoard_consistent hmk
  clear hmk
  induction hsteps with
  | refl => exact base
  | tail hprev hstep ih =>
      obtain ⟨c, lm, m, r, hlm, hm, happ⟩ := hstep
      exact apply_move_consistent ih.1 happ

/-- Witness for C9: the board after 1. e4 from the starting position is
reachable, and both of its caches agree with their generators. -/
theorem claim_C9_witness :
    stepE4.1.fen = stepE4.1.to_fen ∧
      stepE4.1.to_fow_fen stepE4.1.side_to_move = some stepE4.1.fow_fen := by
  have hst : Reachable stepE4.1 := by
    refine ⟨startBoard, ⟨startGrid, 'w', ['K','Q','k','q'], "-", 0, 1, by rfl⟩, ?_⟩
    exact Relation.ReflTransGen.single
      ⟨ChessColor.WHITE, (startBoard.get_legal_moves ChessColor.WHITE).getD [],
        mvE4, stepE4.2, by rfl, by decide, by rfl⟩
  exact ⟨(claim_C9_self_consistency stepE4.1 hst).2.1,
         (claim_C9_self_consistency stepE4.1 hst).2.2⟩

/-- Membership in the own-pieces fold of the sight computation. -/
theorem mem_sightFold {c : ChessColor} {s : Position} :
    ∀ {l : List (Position × Piece)} {init : List Position},
      s ∈ l.foldl (fun acc kv => if kv.2.color = c then acc ++ [kv.2.position] else acc) init ↔
        s ∈ init ∨ ∃ kv, kv ∈ l ∧ kv.2.color = c ∧ kv.2.position = s := by
  intro l
  induction l with
  | nil => intro init; simp
  | cons kv rest ih =>
      intro init
      by_cases hc : kv.2.color = c
      · simp only [List.foldl_cons, hc, ite_true]
        rw [ih]
        simp only [List.mem_append, List.mem_singleton, List.mem_cons]
        constructor
        · rintro ((h | h) | ⟨kv', h1, h2, h3⟩)
          · exact Or.inl h
          · rcases h with h | h
            · exact Or.inr ⟨kv, Or.inl rfl, hc, h.symm⟩
            · simp at h
          · exact Or.inr ⟨kv', Or.inr h1, h2, h3⟩
        · rintro (h | ⟨kv', (rfl | h1), h2, h3⟩)
          · exact Or.inl (Or.inl h)
          · exact Or.inl (Or.inr (Or.inl h3.symm))
          · exact Or.inr ⟨kv', h1, h2, h3⟩
      · simp only [List.foldl_cons, hc, ite_false]
        rw [ih]
        simp only [List.mem_cons]
        constructor
        · rintro (h | ⟨kv', h1, h2, h3⟩)
          · exact Or.inl h
          · exact Or.inr ⟨kv', Or.inr h1, h2, h3⟩
        · rintro (h | ⟨kv', (rfl | h1), h2, h3⟩)
          · exact Or.inl h
          · exact absurd h2 hc
          · exact Or.inr ⟨kv', h1, h2, h3⟩

/-- C4: the sight set computed inside `to_fow_fen` and the one computed
inside `to_fow_array` are the same computation; when it succeeds, a
square is in sight iff it carries one of the color's own pieces or is
the destination of one of the color's generated moves — in particular
every square the color occupies is in sight. -/
theorem claim_C4_sight_sets (b : Board) (c : ChessColor) :
    b.sightFen c = b.sightArray c ∧
    (∀ (s : Position) (sight : List Position), b.sightFen c = some sight →
      (s ∈ sight ↔
        ((∃ kv, kv ∈ b.pieces ∧ kv.2.color = c ∧ kv.2.position = s) ∨
         (∃ lm, b.get_legal_moves c = some lm ∧
            ∃ m, m ∈ legalFlat lm ∧ m.to_position = s)))) ∧
    (∀ (sight : List Position), b.sightFen c = some sight →
      ∀ kv, kv ∈ b.pieces → kv.2.color = c → kv.2.position ∈ sight) := by
  have main : ∀ (s : Position) (sight : List Position), b.sightFen c = some sight →
      (s ∈ sight ↔
        ((∃ kv, kv ∈ b.pieces ∧ kv.2.color = c ∧ kv.2.position = s) ∨
         (∃ lm, b.get_legal_moves c = some lm ∧
            ∃ m, m ∈ legalFlat lm ∧ m.to_position = s))) := by
    intro s sight hs
    unfold Board.sightFen at hs
    cases hlm : b.get_legal_moves c with
    | none => rw [hlm] at hs; simp at hs
    | some lm =>
        rw [hlm] at hs
        simp only [Option.map_some', Option.some.injEq] at hs
        subst hs
        rw [List.mem_append]
        constructor
        · rintro (h | h)
          · rcases mem_sightFold.mp h with h' | ⟨kv, h1, h2, h3⟩
            · simp at h'
            · exact Or.inl ⟨kv, h1, h2, h3⟩
          · rcases List.mem_map.mp h with ⟨m, hm, hto⟩
            exact Or.inr ⟨lm, rfl, m, hm, hto⟩
        · rintro (⟨kv, h1, h2, h3⟩ | ⟨lm', hlm', m, hm, hto⟩)
          · exact Or.inl (mem_sightFold.mpr (Or.inr ⟨kv, h1, h2, h3⟩))
          · cases hlm'
            exact Or.inr (List.mem_map.mpr ⟨m, hm, hto⟩)
  refine ⟨rfl, main, ?_⟩
  intro sight hs kv hkv hc
  exact (main kv.2.position sight hs).mpr (Or.inl ⟨kv, hkv, hc, rfl⟩)

/-- Witness for C4: on the starting position, WHITE's sight contains the
occupied square e1 and the move destination e3, and the two sight
computations agree. -/
theorem claim_C4_witness :
    ((⟨3, 5⟩ : Position) ∈ (startBoard.sightFen ChessColor.WHITE).getD [] ↔
      ((∃ kv, kv ∈ startBoard.pieces ∧ kv.2.color = ChessColor.WHITE ∧
          kv.2.position = ⟨3, 5⟩) ∨
       (∃ lm, startBoard.get_legal_moves ChessColor.WHITE = some lm ∧
          ∃ m, m ∈ legalFlat lm ∧ m.to_position = ⟨3, 5⟩))) ∧
    (⟨1, 5⟩ : Position) ∈ (startBoard.sightFen ChessColor.WHITE).getD [] := by
  constructor
  · exact (claim_C4_sight_sets startBoard ChessColor.WHITE).2.1 ⟨3, 5⟩
      ((startBoard.sightFen ChessColor.WHITE).getD []) (by rfl)
  · exact (claim_C4_sight_sets startBoard ChessColor.WHITE).2.2
      ((startBoard.sightFen ChessColor.WHITE).getD []) (by rfl)
      (⟨1, 5⟩, ⟨.KING, .WHITE, ⟨1, 5⟩⟩) (by decide) (by decide)

/-- Looking up the key just written returns the written piece. -/
theorem pyGet_pySet (d : PieceMap) (k : Position) (v : Piece) :
    pyGet (pySet d k v) k = some v := by
  induction d with
  | nil => simp [pySet, pyGet]
  | cons kv rest ih =>
      obtain ⟨k', v'⟩ := kv
      by_cases hk : k' = k
      · simp [pySet, pyGet, hk]
      · simp [pySet, pyGet, hk, ih]


/-- Membership in an integer `range(lo, hi)`. -/
theorem mem_intRange {lo hi f : Int} : f ∈ intRange lo hi ↔ lo ≤ f ∧ f < hi := by
  constructor
  · intro h
    obtain ⟨i, hi', hf⟩ := List.mem_map.mp h
    rw [List.mem_range] at hi'
    omega
  · rintro ⟨h1, h2⟩
    exact List.mem_map.mpr ⟨(f - lo).toNat, List.mem_range.mpr (by omega), by omega⟩

/-- `get_king_moves` decomposes into the eight offset steps, then the
kingside candidate, then the queenside candidate. -/
theorem get_king_moves_eq (b : Board) (p : Piece) :
    b.get_king_moves p = b.offsetMoves p kingOffsets [] ++ ksPart b p ++ qsPart b p := by
  unfold Board.get_king_moves ksPart qsPart
  by_cases h1 : (b.castling p.color).1
  · simp only [h1, if_true, ite_true]
    cases hrr : pyGet b.pieces ⟨p.rank, 8⟩ with
    | some rr =>
        by_cases he1 : (intRange (p.file + 1) rr.file).all
            (fun f => (pyGet b.pieces ⟨p.rank, f⟩).isNone)
        · simp only [he1, if_true, ite_true]
          by_cases h2 : (b.castling p.color).2
          · simp only [h2, if_true, ite_true]
            cases hlr : pyGet b.pieces ⟨p.rank, 1⟩ with
            | some lr =>
                by_cases he2 : (intRange (lr.file + 1) p.file).all
                    (fun f => (pyGet b.pieces ⟨p.rank, f⟩).isNone)
                · simp [he2, List.append_assoc]
                · simp [he2]
            | none => simp
          · simp [h2]
        · simp only [he1, if_false, ite_false]
          by_cases h2 : (b.castling p.color).2
          · simp only [h2, if_true, ite_true]
            cases hlr : pyGet b.pieces ⟨p.rank, 1⟩ with
            | some lr =>
                by_cases he2 : (intRange (lr.file + 1) p.file).all
                    (fun f => (pyGet b.pieces ⟨p.rank, f⟩).isNone)
                · simp [he2]
                · simp [he2]
            | none => simp
          · simp [h2]
    | none =>
        by_cases h2 : (b.castling p.color).2
        · simp only [h2, if_true, ite_true]
          cases hlr : pyGet b.pieces ⟨p.rank, 1⟩ with
          | some lr =>
              by_cases he2 : (intRange (lr.file + 1) p.file).all
                  (fun f => (pyGet b.pieces ⟨p.rank, f⟩).isNone)
              · simp [he2]
              · simp [he2]
          | none => simp
        · simp [h2]
  · simp only [h1, if_false, ite_false]
    by_cases h2 : (b.castling p.color).2
    · simp only [h2, if_true, ite_true]
      cases hlr : pyGet b.pieces ⟨p.rank, 1⟩ with
      | some lr =>
          by_cases he2 : (intRange (lr.file + 1) p.file).all
              (fun f => (pyGet b.pieces ⟨p.rank, f⟩).isNone)
          · simp [he2]
          · simp [he2]
      | none => simp
    · simp [h2]

/-- A member of the kingside candidate list certifies the flag, the
corner occupant and the empty scan, and is the one castling move. -/
theorem mem_ksPart {b : Board} {p : Piece} {m : Move} (h : m ∈ ksPart b p) :
    (b.castling p.color).1 = true ∧ ∃ r, pyGet b.pieces ⟨p.rank, 8⟩ = some r ∧
      (intRange (p.file + 1) r.file).all
        (fun f => (pyGet b.pieces ⟨p.rank, f⟩).isNone) = true ∧
      m = ⟨p, ⟨p.rank, p.file + 2⟩, none, none, some r⟩ := by
  unfold ksPart at h
  by_cases h1 : (b.castling p.color).1
  · rw [if_pos h1] at h
    cases hget : pyGet b.pieces ⟨p.rank, 8⟩ with
    | none => rw [hget] at h; simp at h
    | some r =>
        simp only [hget] at h
        by_cases hall : (intRange (p.file + 1) r.file).all
            (fun f => (pyGet b.pieces ⟨p.rank, f⟩).isNone)
        · rw [if_pos hall] at h
          simp at h
          exact ⟨h1, r, rfl, hall, h⟩
        · rw [if_neg hall] at h
          simp at h
  · rw [if_neg h1] at h
    simp at h

/-- Conversely, the kingside conditions put the castling move in the
candidate list. -/
theorem ksPart_of {b : Board} {p : Piece} {r : Piece}
    (h1 : (b.castling p.color).1 = true) (hget : pyGet b.pieces ⟨p.rank, 8⟩ = some r)
    (hall : (intRange (p.file + 1) r.file).all
      (fun f => (pyGet b.pieces ⟨p.rank, f⟩).isNone) = true) :
    (⟨p, ⟨p.rank, p.file + 2⟩, none, none, some r⟩ : Move) ∈ ksPart b p := by
  unfold ksPart
  rw [if_pos h1]
  simp only [hget]
  rw [if_pos hall]
  simp

/-- A member of the queenside candidate list certifies the flag, the
corner occupant and the empty scan, and is the one castling move. -/
theorem mem_qsPart {b : Board} {p : Piece} {m : Move} (h : m ∈ qsPart b p) :
    (b.castling p.color).2 = true ∧ ∃ r, pyGet b.pieces ⟨p.rank, 1⟩ = some r ∧
      (intRange (r.file + 1) p.file).all
        (fun f => (pyGet b.pieces ⟨p.rank, f⟩).isNone) = true ∧
      m = ⟨p, ⟨p.rank, p.file - 2⟩, none, none, some r⟩ := by
  unfold qsPart at h
  by_cases h1 : (b.castling p.color).2
  · rw [if_pos h1] at h
    cases hget : pyGet b.pieces ⟨p.rank, 1⟩ with
    | none => rw [hget] at h; simp at h
    | some r =>
        simp only [hget] at h
        by_cases hall : (intRange (r.file + 1) p.file).all
            (fun f => (pyGet b.pieces ⟨p.rank, f⟩).isNone)
        · rw [if_pos hall] at h
          simp at h
          exact ⟨h1, r, rfl, hall, h⟩
        · rw [if_neg hall] at h
          simp at h
  · rw [if_neg h1] at h
    simp at h

/-- Conversely, the queenside conditions put the castling move in the
candidate list. -/
theorem qsPart_of {b : Board} {p : Piece} {r : Piece}
    (h1 : (b.castling p.color).2 = true) (hget : pyGet b.pieces ⟨p.rank, 1⟩ = some r)
    (hall : (intRange (r.file + 1) p.file).all
      (fun f => (pyGet b.pieces ⟨p.rank, f⟩).isNone) = true) :
    (⟨p, ⟨p.rank, p.file - 2⟩, none, none, some r⟩ : Move) ∈ qsPart b p := by
  unfold qsPart
  rw [if_pos h1]
  simp only [hget]
  rw [if_pos hall]
  simp

/-- C7 counterexample: on a board with the white king on e4, a piece on
h4 and the kingside flag set, `get_king_moves` emits the castling move
e4–g4 — but applying it does not put the rook on the file adjacent to the
king's destination on the same rank (f4 stays empty); the rook lands on
f1 instead.  This refutes the claim's relocation clause as stated. -/
theorem claim_C7_counterexample :
    oddCastleMove ∈ oddCastleBoard.get_king_moves ⟨.KING, .WHITE, ⟨4,5⟩⟩ ∧
    oddCastleMove.castling_rook = some ⟨.ROOK, .WHITE, ⟨4,8⟩⟩ ∧
    oddCastleMove.to_position = ⟨4, 7⟩ ∧
    (oddCastleBoard.apply_move oddCastleMove).map
        (fun x => (pyGet x.1.pieces ⟨4, 6⟩, pyGet x.1.pieces ⟨1, 6⟩)) =
      some (none, some ⟨.ROOK, .WHITE, ⟨1, 6⟩⟩) := by
  exact ⟨by decide, by decide, by decide, by decide⟩

/-- C7 as amended: for each side, a castling move is emitted iff the
flag is set, the corner square holds a piece and every square strictly
between the king and the corner is empty; the move goes two files toward
the corner and carries the corner piece; and applying any move that
carries a castling rook relocates that rook to `newRookPosition` of the
king's destination — d8/f8/d1 for the destinations c8/g8/c1 and f1 for
every other destination (so a king castling from its home square e1/e8
does leave the rook adjacent to it, as in the claim's example). -/
theorem claim_C7_castling_amended (b : Board) (p : Piece)
    (hcons : PiecesConsistent b) :
    ((∃ m, m ∈ b.get_king_moves p ∧ m.castling_rook.isSome ∧
        m.to_position = ⟨p.rank, p.file + 2⟩) ↔
      ((b.castling p.color).1 = true ∧ ∃ r, pyGet b.pieces ⟨p.rank, 8⟩ = some r ∧
        ∀ f, p.file < f → f < 8 → pyGet b.pieces ⟨p.rank, f⟩ = none)) ∧
    ((∃ m, m ∈ b.get_king_moves p ∧ m.castling_rook.isSome ∧
        m.to_position = ⟨p.rank, p.file - 2⟩) ↔
      ((b.castling p.color).2 = true ∧ ∃ r, pyGet b.pieces ⟨p.rank, 1⟩ = some r ∧
        ∀ f, 1 < f → f < p.file → pyGet b.pieces ⟨p.rank, f⟩ = none)) ∧
    (∀ m r, m ∈ b.get_king_moves p → m.castling_rook = some r →
      m.piece = p ∧ m.capture_target = none ∧ m.promotion_piece = none ∧
        ((m.to_position = ⟨p.rank, p.file + 2⟩ ∧ pyGet b.pieces ⟨p.rank, 8⟩ = some r) ∨
         (m.to_position = ⟨p.rank, p.file - 2⟩ ∧ pyGet b.pieces ⟨p.rank, 1⟩ = some r))) ∧
    (∀ m r b' res, m.castling_rook = some r → b.apply_move m = some (b', res) →
      pyGet b'.pieces (newRookPosition m.to_position) =
        some { r with position := newRookPosition m.to_position }) := by
  have hfile : ∀ (r : Piece) (k : Position), pyGet b.pieces k = some r → r.file = k.file := by
    intro r k hget
    have := hcons _ _ (pyGet_mem hget)
    show r.position.file = k.file
    rw [this]
  have scanK : ∀ r : Piece, r.file = 8 →
      ((intRange (p.file + 1) r.file).all
          (fun f => (pyGet b.pieces ⟨p.rank, f⟩).isNone) = true ↔
        ∀ f, p.file < f → f < 8 → pyGet b.pieces ⟨p.rank, f⟩ = none) := by
    intro r hrf
    rw [hrf, List.all_eq_true]
    constructor
    · intro hall f hf1 hf2
      have h := hall f (mem_intRange.mpr ⟨by omega, hf2⟩)
      exact Option.isNone_iff_eq_none.mp (by simpa using h)
    · intro hall f hf
      obtain ⟨h1, h2⟩ := mem_intRange.mp hf
      simp [hall f (by omega) h2]
  have scanQ : ∀ r : Piece, r.file = 1 →
      ((intRange (r.file + 1) p.file).all
          (fun f => (pyGet b.pieces ⟨p.rank, f⟩).isNone) = true ↔
        ∀ f, 1 < f → f < p.file → pyGet b.pieces ⟨p.rank, f⟩ = none) := by
    intro r hrf
    rw [hrf, List.all_eq_true]
    constructor
    · intro hall f hf1 hf2
      have h := hall f (mem_intRange.mpr ⟨by omega, hf2⟩)
      exact Option.isNone_iff_eq_none.mp (by simpa using h)
    · intro hall f hf
      obtain ⟨h1, h2⟩ := mem_intRange.mp hf
      simp [hall f (by omega) h2]
  refine ⟨?_, ?_, ?_, ?_⟩
  · constructor
    · rintro ⟨m, hm, hsome, hto⟩
      rw [get_king_moves_eq] at hm
      rcases List.mem_append.mp hm with hm' | hqs
      · rcases List.mem_append.mp hm' with hoff | hks
        · rcases mem_offsetMoves hoff with h | ⟨-, hcr⟩
          · simp at h
          · rw [hcr] at hsome
            simp at hsome
        · obtain ⟨h1, r, hget, hall, rfl⟩ := mem_ksPart hks
          have hrf : r.file = 8 := hfile r _ hget
          exact ⟨h1, r, hget, (scanK r hrf).mp hall⟩
      · obtain ⟨h1, r, hget, hall, rfl⟩ := mem_qsPart hqs
        exfalso
        simp only [Position.mk.injEq] at hto
        omega
    · rintro ⟨h1, r, hget, hempty⟩
      have hrf : r.file = 8 := hfile r _ hget
      refine ⟨⟨p, ⟨p.rank, p.file + 2⟩, none, none, some r⟩, ?_, by simp, rfl⟩
      rw [get_king_moves_eq]
      exact List.mem_append.mpr (Or.inl (List.mem_append.mpr
        (Or.inr (ksPart_of h1 hget ((scanK r hrf).mpr hempty)))))
  · constructor
    · rintro ⟨m, hm, hsome, hto⟩
      rw [get_king_moves_eq] at hm
      rcases List.mem_append.mp hm with hm' | hqs
      · rcases List.mem_append.mp hm' with hoff | hks
        · rcases mem_offsetMoves hoff with h | ⟨-, hcr⟩
          · simp at h
          · rw [hcr] at hsome
            simp at hsome
        · obtain ⟨h1, r, hget, hall, rfl⟩ := mem_ksPart hks
          exfalso
          simp only [Position.mk.injEq] at hto
          omega
      · obtain ⟨h1, r, hget, hall, rfl⟩ := mem_qsPart hqs
        have hrf : r.file = 1 := hfile r _ hget
        exact ⟨h1, r, hget, (scanQ r hrf).mp hall⟩
    · rintro ⟨h1, r, hget, hempty⟩
      have hrf : r.file = 1 := hfile r _ hget
      refine ⟨⟨p, ⟨p.rank, p.file - 2⟩, none, none, some r⟩, ?_, by simp, rfl⟩
      rw [get_king_moves_eq]
      exact List.mem_append.mpr (Or.inr (qsPart_of h1 hget ((scanQ r hrf).mpr hempty)))
  · intro m r hm hcr
    rw [get_king_moves_eq] at hm
    rcases List.mem_append.mp hm with hm' | hqs
    · rcases List.mem_append.mp hm' with hoff | hks
      · rcases mem_offsetMoves hoff with h | ⟨-, hcr'⟩
        · simp at h
        · rw [hcr'] at hcr
          simp at hcr
      · obtain ⟨h1, rr, hget, hall, rfl⟩ := mem_ksPart hks
        simp only [Option.some.injEq] at hcr
        subst hcr
        exact ⟨rfl, rfl, rfl, Or.inl ⟨rfl, hget⟩⟩
    · obtain ⟨h1, rr, hget, hall, rfl⟩ := mem_qsPart hqs
      simp only [Option.some.injEq] at hcr
      subst hcr
      exact ⟨rfl, rfl, rfl, Or.inr ⟨rfl, hget⟩⟩
  · intro m r b' res hcr happ
    have hp : b'.pieces = applyPieces b m := (apply_move_fields happ).1
    rw [hp]
    simp only [applyPieces, hcr]
    exact pyGet_pySet _ _ _

/-- Witness for C7 (amended): on the standard kingside position the
castling move e1–g1 is generated, blocking f1 suppresses it, and
applying it puts the rook on f1 — adjacent to the king's g1. -/
theorem claim_C7_witness :
    ((∃ m, m ∈ castleBoard.get_king_moves ⟨.KING, .WHITE, ⟨1,5⟩⟩ ∧
        m.castling_rook.isSome ∧ m.to_position = ⟨1, 7⟩) ↔
      ((castleBoard.castling ChessColor.WHITE).1 = true ∧
        ∃ r, pyGet castleBoard.pieces ⟨1, 8⟩ = some r ∧
          ∀ f, (5 : Int) < f → f < 8 → pyGet castleBoard.pieces ⟨1, f⟩ = none)) ∧
    castleMoveE1G1 ∈ castleBoard.get_king_moves ⟨.KING, .WHITE, ⟨1,5⟩⟩ ∧
    (∀ m, m ∈ castleBoardBlocked.get_king_moves ⟨.KING, .WHITE, ⟨1,5⟩⟩ →
      m.castling_rook.isSome → False) ∧
    pyGet ((castleBoard.apply_move castleMoveE1G1).getD (dummyBoard, none)).1.pieces
        (newRookPosition ⟨1, 7⟩) =
      some ⟨.ROOK, .WHITE, ⟨1, 6⟩⟩ := by
  refine ⟨?_, by decide, by decide, ?_⟩
  · exact (claim_C7_castling_amended castleBoard ⟨.KING, .WHITE, ⟨1,5⟩⟩
      (by intro k p h; simp [castleBoard] at h; rcases h with ⟨rfl, rfl⟩ | ⟨rfl, rfl⟩ | ⟨rfl, rfl⟩ <;> rfl)).1
  · exact (claim_C7_castling_amended castleBoard ⟨.KING, .WHITE, ⟨1,5⟩⟩
      (by intro k p h; simp [castleBoard] at h; rcases h with ⟨rfl, rfl⟩ | ⟨rfl, rfl⟩ | ⟨rfl, rfl⟩ <;> rfl)).2.2.2 castleMoveE1G1 ⟨.ROOK, .WHITE, ⟨1,8⟩⟩
      ((castleBoard.apply_move castleMoveE1G1).getD (dummyBoard, none)).1
      ((castleBoard.apply_move castleMoveE1G1).getD (dummyBoard, none)).2
      (by decide) (by rfl)

/-- Unfolding of the en-passant-style test. -/
theorem isEpCapture_iff {m : Move} : isEpCapture m = true ↔
    ∃ t, m.capture_target = some t ∧ t.position ≠ m.to_position := by
  unfold isEpCapture
  cases hct : m.capture_target with
  | none => simp
  | some t => simp

/-- C6: pawn move generation includes an en-passant capture iff the
board has a target, the pawn's file differs from the target's by one,
and the pawn stands on rank 5 with the target on rank 6 (white branch)
or rank 4 with the target on rank 3 (black branch); the generated move
goes to the target square and captures the piece standing beside the
mover at the target's file on the mover's rank.  Concretely, after
1. e4 a6 2. e5 d5 from the starting position, white has exactly one
en-passant capture: e5 to d6, taking the pawn on d5. -/
theorem claim_C6_en_passant_generation :
    (∀ (b : Board) (p : Piece) (ms : List Move), PiecesConsistent b →
      b.get_white_pawn_moves p = some ms →
      (((∃ m, m ∈ ms ∧ isEpCapture m = true) ↔
         (∃ ep, b.en_passant = some ep ∧ (p.file - ep.file).natAbs = 1 ∧
            p.rank = 5 ∧ ep.rank = 6)) ∧
       (∀ m, m ∈ ms → isEpCapture m = true →
         ∃ ep t, b.en_passant = some ep ∧ m.to_position = ep ∧
           m.capture_target = some t ∧ t.position = ⟨p.rank, ep.file⟩))) ∧
    (∀ (b : Board) (p : Piece) (ms : List Move), PiecesConsistent b →
      b.get_black_pawn_moves p = some ms →
      (((∃ m, m ∈ ms ∧ isEpCapture m = true) ↔
         (∃ ep, b.en_passant = some ep ∧ (p.file - ep.file).natAbs = 1 ∧
            p.rank = 4 ∧ ep.rank = 3)) ∧
       (∀ m, m ∈ ms → isEpCapture m = true →
         ∃ ep t, b.en_passant = some ep ∧ m.to_position = ep ∧
           m.capture_target = some t ∧ t.position = ⟨p.rank, ep.file⟩))) ∧
    (mvE4 ∈ legalFlat ((startBoard.get_legal_moves ChessColor.WHITE).getD []) ∧
     mvA6 ∈ legalFlat ((stepE4.1.get_legal_moves ChessColor.BLACK).getD []) ∧
     mvE5 ∈ legalFlat ((stepA6.1.get_legal_moves ChessColor.WHITE).getD []) ∧
     mvD5 ∈ legalFlat ((stepE5.1.get_legal_moves ChessColor.BLACK).getD []) ∧
     (legalFlat ((stepD5.1.get_legal_moves ChessColor.WHITE).getD [])).filter
         (fun m => isEpCapture m) =
       [⟨⟨.PAWN, .WHITE, ⟨5,5⟩⟩, ⟨6,4⟩, some ⟨.PAWN, .BLACK, ⟨5,4⟩⟩, none, none⟩]) := by
  refine ⟨?_, ?_, by decide, by decide, by decide, by decide, by decide⟩
  · intro b p ms hcons hms
    unfold Board.get_white_pawn_moves at hms
    cases hep : b.white_pawn_ep p with
    | none => rw [hep] at hms; simp at hms
    | some e =>
        rw [hep] at hms
        simp only [Option.map_some', Option.some.injEq] at hms
        subst hms
        have base_not_ep : ∀ m, m ∈ b.white_pawn_base p → isEpCapture m = true → False := by
          intro m hm hepc
          obtain ⟨t, hct, hne⟩ := isEpCapture_iff.mp hepc
          rcases (mem_white_pawn_base hm).2.2.1 with h | h
          · rw [hct] at h; simp at h
          · rw [hct] at h
            exact hne (hcons _ _ (pyGet_mem h.symm))
        constructor
        · constructor
          · rintro ⟨m, hm, hepc⟩
            rcases List.mem_append.mp hm with hm' | hm'
            · exact absurd hepc (fun h => base_not_ep m hm' h)
            · rcases white_pawn_ep_spec hep with ⟨rfl, -⟩ | ⟨ep, t, heq, hf, h5, h6, -, rfl⟩
              · simp at hm'
              · exact ⟨ep, heq, hf, h5, h6⟩
          · rintro ⟨ep, heq, hf, h5, h6⟩
            rcases white_pawn_ep_spec hep with ⟨-, hno⟩ | ⟨ep', t, heq', hf', h5', h6', hget, rfl⟩
            · exact absurd ⟨ep, heq, hf, h5, h6⟩ hno
            · refine ⟨⟨p, ep', some t, none, none⟩, List.mem_append.mpr (Or.inr (by simp)), ?_⟩
              rw [isEpCapture_iff]
              refine ⟨t, rfl, ?_⟩
              have ht : t.position = ⟨5, ep'.file⟩ := hcons _ _ (pyGet_mem hget)
              intro hcontra
              rw [ht] at hcontra
              have : (5 : Int) = ep'.rank := congrArg Position.rank hcontra
              omega
        · intro m hm hepc
          rcases List.mem_append.mp hm with hm' | hm'
          · exact absurd hepc (fun h => base_not_ep m hm' h)
          · rcases white_pawn_ep_spec hep with ⟨rfl, -⟩ | ⟨ep, t, heq, hf, h5, h6, hget, rfl⟩
            · simp at hm'
            · simp only [List.mem_singleton] at hm'
              subst hm'
              refine ⟨ep, t, heq, rfl, rfl, ?_⟩
              rw [h5]
              exact hcons _ _ (pyGet_mem hget)
  · intro b p ms hcons hms
    unfold Board.get_black_pawn_moves at hms
    cases hep : b.black_pawn_ep p with
    | none => rw [hep] at hms; simp at hms
    | some e =>
        rw [hep] at hms
        simp only [Option.map_some', Option.some.injEq] at hms
        subst hms
        have base_not_ep : ∀ m, m ∈ b.black_pawn_base p → isEpCapture m = true → False := by
          intro m hm hepc
          obtain ⟨t, hct, hne⟩ := isEpCapture_iff.mp hepc
          rcases (mem_black_pawn_base hm).2.2.1 with h | h
          · rw [hct] at h; simp at h
          · rw [hct] at h
            exact hne (hcons _ _ (pyGet_mem h.symm))
        constructor
        · constructor
          · rintro ⟨m, hm, hepc⟩
            rcases List.mem_append.mp hm with hm' | hm'
            · exact absurd hepc (fun h => base_not_ep m hm' h)
            · rcases black_pawn_ep_spec hep with ⟨rfl, -⟩ | ⟨ep, t, heq, hf, h4, h3, -, rfl⟩
              · simp at hm'
              · exact ⟨ep, heq, hf, h4, h3⟩
          · rintro ⟨ep, heq, hf, h4, h3⟩
            rcases black_pawn_ep_spec hep with ⟨-, hno⟩ | ⟨ep', t, heq', hf', h4', h3', hget, rfl⟩
            · exact absurd ⟨ep, heq, hf, h4, h3⟩ hno
            · refine ⟨⟨p, ep', some t, none, none⟩, List.mem_append.mpr (Or.inr (by simp)), ?_⟩
              rw [isEpCapture_iff]
              refine ⟨t, rfl, ?_⟩
              have ht : t.position = ⟨4, ep'.file⟩ := hcons _ _ (pyGet_mem hget)
              intro hcontra
              rw [ht] at hcontra
              have : (4 : Int) = ep'.rank := congrArg Position.rank hcontra
              omega
        · intro m hm hepc
          rcases List.mem_append.mp hm with hm' | hm'
          · exact absurd hepc (fun h => base_not_ep m hm' h)
          · rcases black_pawn_ep_spec hep with ⟨rfl, -⟩ | ⟨ep, t, heq, hf, h4, h3, hget, rfl⟩
            · simp at hm'
            · simp only [List.mem_singleton] at hm'
              subst hm'
              refine ⟨ep, t, heq, rfl, rfl, ?_⟩
              rw [h4]
              exact hcons _ _ (pyGet_mem hget)

/-- Witness for C6: on the board after a black d7–d5 double step beside
the white e5 pawn, the generation iff is realized concretely. -/
theorem claim_C6_witness :
    ((∃ m, m ∈ ((epBoard.get_white_pawn_moves ⟨.PAWN, .WHITE, ⟨5,5⟩⟩).getD []) ∧
        isEpCapture m = true) ↔
      (∃ ep, epBoard.en_passant = some ep ∧
        ((⟨.PAWN, .WHITE, ⟨5,5⟩⟩ : Piece).file - ep.file).natAbs = 1 ∧
        (⟨.PAWN, .WHITE, ⟨5,5⟩⟩ : Piece).rank = 5 ∧ ep.rank = 6)) :=
  (claim_C6_en_passant_generation.1 epBoard ⟨.PAWN, .WHITE, ⟨5,5⟩⟩
    ((epBoard.get_white_pawn_moves ⟨.PAWN, .WHITE, ⟨5,5⟩⟩).getD [])
    (by intro k p h; simp [epBoard] at h; rcases h with ⟨rfl, rfl⟩ | ⟨rfl, rfl⟩ <;> rfl)
    (by rfl)).1

/-- A single-cell write leaves every other cell unchanged. -/
theorem wr_ne {a : Arr} {r0 f0 : Int} {ch0 : Nat} {v : Bool} {r f : Int} {ch : Nat}
    (h : ¬(r = r0 ∧ f = f0 ∧ ch = ch0)) : wr a r0 f0 ch0 v r f ch = a r f ch := by
  unfold wr
  rw [if_neg h]

/-- A plane write leaves every other channel unchanged. -/
theorem fillPlane_ne {a : Arr} {ch : Nat} {v : Bool} {r f : Int} {ch' : Nat}
    (h : ch' ≠ ch) : fillPlane a ch v r f ch' = a r f ch' := by
  unfold fillPlane
  rw [if_neg h]

/-- The header planes never touch a channel at or above 5. -/
theorem headerPlanes_high {b : Board} {r f : Int} {ch : Nat} (h : 5 ≤ ch) :
    headerPlanes b r f ch = false := by
  unfold headerPlanes
  by_cases c5 : b.side_to_move = ChessColor.WHITE <;>
    by_cases c1 : b.castlingW.1 <;> by_cases c2 : b.castlingW.2 <;>
      by_cases c3 : b.castlingB.1 <;> by_cases c4 : b.castlingB.2 <;>
        simp [c1, c2, c3, c4, c5,
          fillPlane_ne (show ch ≠ 0 by omega), fillPlane_ne (show ch ≠ 1 by omega),
          fillPlane_ne (show ch ≠ 2 by omega), fillPlane_ne (show ch ≠ 3 by omega),
          fillPlane_ne (show ch ≠ 4 by omega), zerosArr]

/-- The full-board occupancy loop never touches a channel below 7. -/
theorem pieceLoop_low {b : Board} {r f : Int} {ch : Nat} (h : ch < 7) :
    ∀ (sq : List (Int × Int)) (a : Arr), pieceLoop b sq a r f ch = a r f ch := by
  intro sq
  induction sq with
  | nil => intro a; rfl
  | cons rf rest ih =>
      intro a
      obtain ⟨r0, f0⟩ := rf
      unfold pieceLoop
      cases pyGet b.pieces ⟨r0 + 1, f0 + 1⟩ with
      | some pc =>
          show pieceLoop b rest (wr a r0 f0 (7 + pc.color.value * 6 + pc.type.ordinal) true)
              r f ch = a r f ch
          rw [ih]
          exact wr_ne (by omega)
      | none =>
          show pieceLoop b rest a r f ch = a r f ch
          exact ih a

/-- The fog occupancy loop never touches a channel below 7. -/
theorem fowPieceLoop_low {b : Board} {sight : List Position} {r f : Int} {ch : Nat}
    (h : ch < 7) :
    ∀ (sq : List (Int × Int)) (a : Arr), fowPieceLoop b sight sq a r f ch = a r f ch := by
  intro sq
  induction sq with
  | nil => intro a; rfl
  | cons rf rest ih =>
      intro a
      obtain ⟨r0, f0⟩ := rf
      unfold fowPieceLoop
      by_cases hs : (⟨r0 + 1, f0 + 1⟩ : Position) ∈ sight
      · rw [if_pos hs]
        cases pyGet b.pieces ⟨r0 + 1, f0 + 1⟩ with
        | some pc =>
            show fowPieceLoop b sight rest
                (wr a r0 f0 (7 + pc.color.value * 6 + pc.type.ordinal) true) r f ch = a r f ch
            rw [ih]
            exact wr_ne (by omega)
        | none =>
            show fowPieceLoop b sight rest a r f ch = a r f ch
            exact ih a
      · rw [if_neg hs]
        exact ih a

/-- The sight-mask loop only touches channel 5. -/
theorem visLoop_ne {sight : List Position} {r f : Int} {ch : Nat} (h : ch ≠ 5) :
    ∀ (sq : List (Int × Int)) (a : Arr), visLoop sight sq a r f ch = a r f ch := by
  intro sq
  induction sq with
  | nil => intro a; rfl
  | cons rf rest ih =>
      intro a
      obtain ⟨r0, f0⟩ := rf
      unfold visLoop
      by_cases hs : (⟨r0 + 1, f0 + 1⟩ : Position) ∈ sight
      · rw [if_pos hs, ih]
        exact wr_ne (by omega)
      · rw [if_neg hs]
        exact ih a

/-- A successful bounds-checked write certifies in-range indices and is
the plain write at the wrapped index. -/
theorem npSet_some {a : Arr} {r f : Int} {ch : Nat} {a' : Arr}
    (h : npSet a r f ch = some a') :
    -8 ≤ r ∧ r < 8 ∧ -8 ≤ f ∧ f < 8 ∧ a' = wr a (r % 8) (f % 8) ch true := by
  unfold npSet at h
  by_cases hc : -8 ≤ r ∧ r < 8 ∧ -8 ≤ f ∧ f < 8
  · rw [if_pos hc] at h
    simp at h
    exact ⟨hc.1, hc.2.1, hc.2.2.1, hc.2.2.2, h.symm⟩
  · rw [if_neg hc] at h
    simp at h

/-- The bounds-checked write fails exactly off the 8×8 plane. -/
theorem npSet_none {a : Arr} {r f : Int} {ch : Nat}
    (h : ¬(-8 ≤ r ∧ r < 8 ∧ -8 ≤ f ∧ f < 8)) : npSet a r f ch = none := by
  unfold npSet
  rw [if_neg h]

/-- The en-passant far-rank mark succeeds for a target file in [1, 8]
and only touches the two pawn planes (channels 7 and 13). -/
theorem epMark_spec (e : Position) (a : Arr) (h1 : 1 ≤ e.file) (h8 : e.file ≤ 8) :
    ∃ a', epMark e a = some a' ∧
      ∀ (r f : Int) (ch : Nat), ch ≠ 7 → ch ≠ 13 → a' r f ch = a r f ch := by
  unfold epMark npSet
  by_cases h3 : e.rank = 3
  · rw [if_pos h3, if_pos (by omega)]
    refine ⟨_, rfl, ?_⟩
    intro r f ch hc7 hc13
    exact wr_ne (by simp [ChessColor.value, PieceType.ordinal]; omega)
  · rw [if_neg h3, if_pos (by omega)]
    refine ⟨_, rfl, ?_⟩
    intro r f ch hc7 hc13
    exact wr_ne (by simp [ChessColor.value, PieceType.ordinal]; omega)

/-- C10: for a halfmove clock in [0, 63], `to_array` sets exactly one
cell of channel 5 — at row clock / 8, column clock % 8, i.e. flattened
index clock — and for a clock of 64 or more the channel-5 write indexes
out of the 8×8 plane and `to_array` fails instead of returning a
tensor.  (The en-passant hypothesis only keeps the independent far-rank
pawn write, which runs after the channel-5 write, in bounds.) -/
theorem claim_C10_halfmove_plane (b : Board)
    (hep : ∀ e, b.en_passant = some e → 1 ≤ e.file ∧ e.file ≤ 8) :
    (64 ≤ b.halfmove_clock → b.to_array = none) ∧
    (b.halfmove_clock ≤ 63 → (b.to_array).isSome = true) ∧
    (∀ a, b.to_array = some a → ∀ r f : Int, 0 ≤ r → r < 8 → 0 ≤ f → f < 8 →
      (a r f 5 = true ↔ r * 8 + f = (b.halfmove_clock : Int))) := by
  refine ⟨?_, ?_, ?_⟩
  · intro h64
    have hq : ¬(-8 ≤ ((b.halfmove_clock / 8 : Nat) : Int) ∧
        ((b.halfmove_clock / 8 : Nat) : Int) < 8 ∧
        -8 ≤ ((b.halfmove_clock % 8 : Nat) : Int) ∧
        ((b.halfmove_clock % 8 : Nat) : Int) < 8) := by
      push_cast
      omega
    unfold Board.to_array
    simp only [npSet_none hq]
  · intro h63
    have hs : npSet (headerPlanes b) ((b.halfmove_clock / 8 : Nat) : Int)
        ((b.halfmove_clock % 8 : Nat) : Int) 5 =
        some (wr (headerPlanes b) (((b.halfmove_clock / 8 : Nat) : Int) % 8)
          (((b.halfmove_clock % 8 : Nat) : Int) % 8) 5 true) := by
      unfold npSet
      rw [if_pos (by push_cast; omega)]
    unfold Board.to_array
    simp only [hs]
    cases hepc : b.en_passant with
    | none => simp [hepc]
    | some e =>
        obtain ⟨hf1, hf8⟩ := hep e hepc
        obtain ⟨a', hmark, -⟩ := epMark_spec e
          (pieceLoop b squares0 (fillPlane (wr (headerPlanes b)
            (((b.halfmove_clock / 8 : Nat) : Int) % 8)
            (((b.halfmove_clock % 8 : Nat) : Int) % 8) 5 true) 6 true)) hf1 hf8
        simp only [hepc, hmark]
        simp
  · intro a ha r f hr0 hr8 hf0 hf8
    unfold Board.to_array at ha
    cases hset : npSet (headerPlanes b) ((b.halfmove_clock / 8 : Nat) : Int)
        ((b.halfmove_clock % 8 : Nat) : Int) 5 with
    | none => simp only [hset] at ha; simp at ha
    | some a6 =>
        simp only [hset] at ha
        obtain ⟨-, hq8, -, hrem8, rfl⟩ := npSet_some hset
        have chain : ∀ a10 : Arr,
            (∀ (r' f' : Int) (ch : Nat), ch ≠ 7 → ch ≠ 13 →
              a10 r' f' ch = pieceLoop b squares0 (fillPlane (wr (headerPlanes b)
                (((b.halfmove_clock / 8 : Nat) : Int) % 8)
                (((b.halfmove_clock % 8 : Nat) : Int) % 8) 5 true) 6 true) r' f' ch) →
            a = fillPlane a10 19 false →
            (a r f 5 = true ↔ r * 8 + f = (b.halfmove_clock : Int)) := by
          intro a10 hpres haeq
          subst haeq
          rw [fillPlane_ne (show (5 : Nat) ≠ 19 by omega),
            hpres r f 5 (by omega) (by omega),
            pieceLoop_low (by omega), fillPlane_ne (show (5 : Nat) ≠ 6 by omega)]
          unfold wr
          by_cases hc : r = ((b.halfmove_clock / 8 : Nat) : Int) % 8 ∧
              f = ((b.halfmove_clock % 8 : Nat) : Int) % 8 ∧ (5 : Nat) = 5
          · rw [if_pos hc]
            obtain ⟨hcr, hcf, -⟩ := hc
            subst hcr
            subst hcf
            simp only [true_iff]
            push_cast
            omega
          · rw [if_neg hc]
            rw [headerPlanes_high (by omega)]
            constructor
            · intro h
              simp at h
            · intro harith
              exfalso
              apply hc
              refine ⟨by push_cast at harith ⊢; omega, by push_cast at harith ⊢; omega, rfl⟩
        cases hepc : b.en_passant with
        | none =>
            simp only [hepc, Option.some.injEq] at ha
            exact chain _ (fun r' f' ch _ _ => rfl) ha.symm
        | some e =>
            obtain ⟨hf1, hf8'⟩ := hep e hepc
            obtain ⟨a', hmark, hpres⟩ := epMark_spec e
              (pieceLoop b squares0 (fillPlane (wr (headerPlanes b)
                (((b.halfmove_clock / 8 : Nat) : Int) % 8)
                (((b.halfmove_clock % 8 : Nat) : Int) % 8) 5 true) 6 true)) hf1 hf8'
            simp only [hepc, hmark, Option.some.injEq] at ha
            exact chain a' hpres ha.symm

/-- Witness for C10: with the clock at 17 the tensor exists and its
channel-5 cell at row 2, column 1 (flattened index 17) is set; with the
clock at 64 `to_array` fails. -/
theorem claim_C10_witness :
    (clockBoard.to_array).isSome = true ∧
    clockBoard64.to_array = none ∧
    (((clockBoard.to_array).getD zerosArr) 2 1 5 = true ↔
      (2 : Int) * 8 + 1 = (clockBoard.halfmove_clock : Int)) ∧
    (((clockBoard.to_array).getD zerosArr) 0 0 5 = true ↔
      (0 : Int) * 8 + 0 = (clockBoard.halfmove_clock : Int)) := by
  have hep17 : ∀ e, clockBoard.en_passant = some e → 1 ≤ e.file ∧ e.file ≤ 8 := by
    intro e he
    simp [clockBoard, epBoard] at he
  have hep64 : ∀ e, clockBoard64.en_passant = some e → 1 ≤ e.file ∧ e.file ≤ 8 := by
    intro e he
    simp [clockBoard64, clockBoard, epBoard] at he
  refine ⟨?_, ?_, ?_, ?_⟩
  · exact (claim_C10_halfmove_plane clockBoard hep17).2.1 (by decide)
  · exact (claim_C10_halfmove_plane clockBoard64 hep64).1 (by decide)
  · exact (claim_C10_halfmove_plane clockBoard hep17).2.2
      ((clockBoard.to_array).getD zerosArr) (by rfl) 2 1
      (by decide) (by decide) (by decide) (by decide)
  · exact (claim_C10_halfmove_plane clockBoard hep17).2.2
      ((clockBoard.to_array).getD zerosArr) (by rfl) 0 0
      (by decide) (by decide) (by decide) (by decide)

/-- The decimal digits of a rank's empty-square counter (at most 8 in
every call) are never piece letters. -/
theorem counter_not_pieceLetter {cnt : Nat} (hc : cnt ≤ 8) :
    ∀ ch, ch ∈ (toString cnt).data → isPieceLetter ch = false := by
  interval_cases cnt <;> decide

/-- Every piece-letter character a fog rank string contains belongs to a
piece standing on an in-sight square of that rank. -/
theorem fowRankGo_chars {b : Board} {sight : List Position} {rank : Int} :
    ∀ (files : List Int) (cnt : Nat) (s : String),
      cnt + files.length ≤ 8 →
      (∀ ch, ch ∈ s.data → isPieceLetter ch = true →
        ∃ f pc, pyGet b.pieces ⟨rank, f⟩ = some pc ∧ (⟨rank, f⟩ : Position) ∈ sight ∧
          ch = pieceChar pc) →
      ∀ ch, ch ∈ (fowRankGo b sight rank files cnt s).data → isPieceLetter ch = true →
        ∃ f pc, pyGet b.pieces ⟨rank, f⟩ = some pc ∧ (⟨rank, f⟩ : Position) ∈ sight ∧
          ch = pieceChar pc := by
  intro files
  induction files with
  | nil =>
      intro cnt s hbound hs ch hch hletter
      unfold fowRankGo at hch
      by_cases hcnt : cnt ≠ 0
      · rw [if_pos hcnt, String.data_append] at hch
        rcases List.mem_append.mp hch with h | h
        · exact hs ch h hletter
        · rw [counter_not_pieceLetter (by omega) ch h] at hletter
          simp at hletter
      · rw [if_neg hcnt] at hch
        exact hs ch hch hletter
  | cons file rest ih =>
      intro cnt s hbound hs ch hch hletter
      have flush_ok : ∀ ch', ch' ∈ (if cnt ≠ 0 then s ++ toString cnt else s).data →
          isPieceLetter ch' = true →
          ∃ f pc, pyGet b.pieces ⟨rank, f⟩ = some pc ∧ (⟨rank, f⟩ : Position) ∈ sight ∧
            ch' = pieceChar pc := by
        intro ch' hch' hl
        by_cases hcnt : cnt ≠ 0
        · rw [if_pos hcnt, String.data_append] at hch'
          rcases List.mem_append.mp hch' with h | h
          · exact hs ch' h hl
          · rw [counter_not_pieceLetter (by omega) ch' h] at hl
            simp at hl
        · rw [if_neg hcnt] at hch'
          exact hs ch' hch' hl
      unfold fowRankGo at hch
      by_cases hsight : (⟨rank, file⟩ : Position) ∈ sight
      · rw [if_pos hsight] at hch
        cases hget : pyGet b.pieces ⟨rank, file⟩ with
        | some pc =>
            rw [hget] at hch
            refine ih 0 _ (by simp at hbound ⊢; omega) ?_ ch hch hletter
            intro ch' hch' hl
            rw [String.data_push] at hch'
            rcases List.mem_append.mp hch' with h | h
            · exact flush_ok ch' h hl
            · rw [List.mem_singleton] at h
              exact ⟨file, pc, hget, hsight, h⟩
        | none =>
            rw [hget] at hch
            exact ih (cnt + 1) s (by simp at hbound ⊢; omega) hs ch hch hletter
      · rw [if_neg hsight] at hch
        refine ih 0 _ (by simp at hbound ⊢; omega) ?_ ch hch hletter
        intro ch' hch' hl
        rw [String.data_push] at hch'
        rcases List.mem_append.mp hch' with h | h
        · exact flush_ok ch' h hl
        · rw [List.mem_singleton] at h
          subst h
          simp [isPieceLetter] at hl

/-- A cell the fog occupancy loop reports set either was set before or
lies on an in-sight square. -/
theorem fowPieceLoop_true {b : Board} {sight : List Position} {r f : Int} {ch : Nat} :
    ∀ (sq : List (Int × Int)) (a : Arr), fowPieceLoop b sight sq a r f ch = true →
      a r f ch = true ∨ (⟨r + 1, f + 1⟩ : Position) ∈ sight := by
  intro sq
  induction sq with
  | nil => intro a h; exact Or.inl h
  | cons rf rest ih =>
      intro a h
      obtain ⟨r0, f0⟩ := rf
      unfold fowPieceLoop at h
      by_cases hs : (⟨r0 + 1, f0 + 1⟩ : Position) ∈ sight
      · rw [if_pos hs] at h
        cases hget : pyGet b.pieces ⟨r0 + 1, f0 + 1⟩ with
        | some pc =>
            rw [hget] at h
            rcases ih _ h with h' | h'
            · unfold wr at h'
              by_cases hc : r = r0 ∧ f = f0 ∧ ch = 7 + pc.color.value * 6 + pc.type.ordinal
              · obtain ⟨rfl, rfl, -⟩ := hc
                exact Or.inr hs
              · rw [if_neg hc] at h'
                exact Or.inl h'
            · exact Or.inr h'
        | none =>
            rw [hget] at h
            exact ih _ h
      · rw [if_neg hs] at h
        exact ih _ h

/-- The en-passant mark is a single write into channel 7 (white target,
rank 3, row 0) or channel 13 (any other target, row 7) at the wrapped
file index. -/
theorem epMark_eq {e : Position} {a a' : Arr} (h : epMark e a = some a') :
    (e.rank = 3 ∧ a' = wr a 0 ((e.file - 1) % 8) 7 true) ∨
    (e.rank ≠ 3 ∧ a' = wr a 7 ((e.file - 1) % 8) 13 true) := by
  unfold epMark at h
  by_cases h3 : e.rank = 3
  · rw [if_pos h3] at h
    obtain ⟨-, -, -, -, heq⟩ := npSet_some h
    exact Or.inl ⟨h3, heq⟩
  · rw [if_neg h3] at h
    obtain ⟨-, -, -, -, heq⟩ := npSet_some h
    exact Or.inr ⟨h3, heq⟩

/-- C5 counterexample: on the board with the white pawn e5, black pawn
d5 and en-passant target d6 (in white's sight), the white fog tensor
sets the black-pawn plane (channel 13) at d8 — row index 7, file
index 3 — although d8 is not in white's sight set.  This refutes the
tensor half of the claim as stated. -/
theorem claim_C5_counterexample :
    epBoard.to_fow_array ChessColor.WHITE = some epBoardFow ∧
    epBoard.sightArray ChessColor.WHITE = some epBoardSight ∧
    epBoardFow 7 3 13 = true ∧
    ¬ ((⟨8, 4⟩ : Position) ∈ epBoardSight) := by
  exact ⟨by rfl, by rfl, by decide, by decide⟩

/-- C5 as amended: the fog text form prints a piece letter only at
squares of the sight set, and the fog tensor form sets a cell of the
piece-occupancy planes (channels 7–18) only at squares of the sight set
or through the en-passant far-rank marking — the write into the
vulnerable pawn's plane (channel 7 at row 0 for a rank-3 target,
channel 13 at row 7 otherwise) at the target's file, applied when the
en-passant target itself is in sight even though the far-rank square
need not be. -/
theorem claim_C5_fog_masking_amended :
    (∀ (b : Board) (c : ChessColor) (sight : List Position) (rank : Int),
      b.sightFen c = some sight →
      ∀ ch, ch ∈ (fowRankGo b sight rank fileList 0 "").data → isPieceLetter ch = true →
        ∃ f pc, pyGet b.pieces ⟨rank, f⟩ = some pc ∧ (⟨rank, f⟩ : Position) ∈ sight ∧
          ch = pieceChar pc) ∧
    (∀ (b : Board) (c : ChessColor) (sight : List Position) (a : Arr),
      b.sightArray c = some sight → b.to_fow_array c = some a →
      ∀ (r f : Int) (ch : Nat), 7 ≤ ch → ch ≤ 18 → a r f ch = true →
        ((⟨r + 1, f + 1⟩ : Position) ∈ sight ∨
         ∃ e, b.en_passant = some e ∧ e ∈ sight ∧
           ((e.rank = 3 ∧ r = 0 ∧ f = (e.file - 1) % 8 ∧ ch = 7) ∨
            (e.rank ≠ 3 ∧ r = 7 ∧ f = (e.file - 1) % 8 ∧ ch = 13)))) := by
  constructor
  · intro b c sight rank hsight ch hch hletter
    exact fowRankGo_chars fileList 0 "" (by simp [fileList]) (by simp) ch hch hletter
  · intro b c sight a hsight ha r f ch h7 h18 hcell
    unfold Board.to_fow_array at ha
    simp only [hsight] at ha
    have low : ∀ hcell' : fowPieceLoop b sight squares0
        (fillPlane (visLoop sight squares0 (headerPlanes b)) 6 true) r f ch = true,
        (⟨r + 1, f + 1⟩ : Position) ∈ sight := by
      intro hcell'
      rcases fowPieceLoop_true squares0 _ hcell' with h' | h'
      · rw [fillPlane_ne (show ch ≠ 6 by omega), visLoop_ne (show ch ≠ 5 by omega),
          headerPlanes_high (by omega)] at h'
        simp at h'
      · exact h'
    cases hepc : b.en_passant with
    | none =>
        simp only [hepc, Option.some.injEq] at ha
        rw [← ha, fillPlane_ne (show ch ≠ 19 by omega)] at hcell
        exact Or.inl (low hcell)
    | some e =>
        simp only [hepc] at ha
        by_cases hes : e ∈ sight
        · rw [if_pos hes] at ha
          cases hmark : epMark e (fowPieceLoop b sight squares0
              (fillPlane (visLoop sight squares0 (headerPlanes b)) 6 true)) with
          | none => rw [hmark] at ha; simp at ha
          | some a10 =>
              rw [hmark] at ha
              simp only [Option.some.injEq] at ha
              rw [← ha, fillPlane_ne (show ch ≠ 19 by omega)] at hcell
              rcases epMark_eq hmark with ⟨h3, rfl⟩ | ⟨h3, rfl⟩
              · unfold wr at hcell
                by_cases hc : r = 0 ∧ f = (e.file - 1) % 8 ∧ ch = 7
                · exact Or.inr ⟨e, rfl, hes, Or.inl ⟨h3, hc⟩⟩
                · rw [if_neg hc] at hcell
                  exact Or.inl (low hcell)
              · unfold wr at hcell
                by_cases hc : r = 7 ∧ f = (e.file - 1) % 8 ∧ ch = 13
                · exact Or.inr ⟨e, rfl, hes, Or.inr ⟨h3, hc⟩⟩
                · rw [if_neg hc] at hcell
                  exact Or.inl (low hcell)
        · rw [if_neg hes] at ha
          simp only [Option.some.injEq] at ha
          rw [← ha, fillPlane_ne (show ch ≠ 19 by omega)] at hcell
          exact Or.inl (low hcell)

/-- Witness for C5 (amended): on the en-passant board, white's rank-8
fog string reveals pieces only in sight, and the set channel-13 cell at
row 7, file 3 is accounted for by the en-passant exception. -/
theorem claim_C5_witness :
    (∀ ch, ch ∈ (fowRankGo epBoard epBoardSight 8 fileList 0 "").data →
        isPieceLetter ch = true →
        ∃ f pc, pyGet epBoard.pieces ⟨8, f⟩ = some pc ∧
          (⟨8, f⟩ : Position) ∈ epBoardSight ∧ ch = pieceChar pc) ∧
    ((⟨8, 4⟩ : Position) ∈ epBoardSight ∨
      ∃ e, epBoard.en_passant = some e ∧ e ∈ epBoardSight ∧
        ((e.rank = 3 ∧ (7 : Int) = 0 ∧ (3 : Int) = (e.file - 1) % 8 ∧ (13 : Nat) = 7) ∨
         (e.rank ≠ 3 ∧ (7 : Int) = 7 ∧ (3 : Int) = (e.file - 1) % 8 ∧ (13 : Nat) = 13))) := by
  constructor
  · exact claim_C5_fog_masking_amended.1 epBoard ChessColor.WHITE epBoardSight 8 (by rfl)
  · have h := claim_C5_fog_masking_amended.2 epBoard ChessColor.WHITE epBoardSight epBoardFow
      (by rfl) (by rfl) 7 3 13 (by omega) (by omega) (by decide)
    simpa using h
